import Mathlib

/-!
# Verification of the Huffman compressor in `assignments/a2/starter/huffman.py`

This file gives a shallow embedding of the Huffman compression code and
proves or refutes the specification's claims about it.

Conventions of the embedding:

* A Python `HuffmanNode`-or-`None` value is modelled by the inductive type
  `HTree`, whose constructor `HTree.null` stands for Python's `None` and
  whose constructor `HTree.mk` stands for a `HuffmanNode` object with its
  `symbol`, `left`, `right` and `number` attributes.  (`nodes.py`, which
  defines the plain data classes `HuffmanNode` and `ReadNode`, is not part
  of the sources; the classes are modelled from the spec's data model:
  a node holds an optional symbol, optional children and an optional
  postorder number, `is_leaf` holds iff the node has no children, and
  structural equality ignores the `number` attribute.)
* Byte strings are `List Nat`; bit strings (Python `str` of `'0'`/`'1'`)
  are `List Char`.
* Python dictionaries keyed by ints are association lists `List (Nat × Nat)`
  in insertion order.
* Fallible code (code that can raise `IndexError`, `KeyError`,
  `TypeError`/`ValueError` from `bytes(...)`, `OverflowError`,
  `ZeroDivisionError`, or exhaust the recursion limit) returns an `Option`,
  with `none` for the raising runs.  Recursions whose termination depends
  on the input data (`generate_tree_general`, `generate_tree_postorder`,
  the merge loop of `huffman_tree`) take explicit fuel.
-/

/-- A Python `HuffmanNode` reference: either `None` (`null`) or a node with
`symbol`, `left`, `right` and `number` attributes. -/
inductive HTree : Type where
  | null : HTree
  | mk (symbol : Option Nat) (left : HTree) (right : HTree) (number : Option Nat) : HTree
deriving DecidableEq, Repr

namespace HTree

/-- The `symbol` attribute (only meaningful on non-`null` nodes). -/
def symbol : HTree → Option Nat
  | .null => none
  | .mk s _ _ _ => s

/-- The `left` attribute. -/
def left : HTree → HTree
  | .null => .null
  | .mk _ l _ _ => l

/-- The `right` attribute. -/
def right : HTree → HTree
  | .null => .null
  | .mk _ _ r _ => r

/-- The `number` attribute. -/
def number : HTree → Option Nat
  | .null => none
  | .mk _ _ _ n => n

/-- `HuffmanNode.is_leaf`: true iff the node has no children
(`not self.left and not self.right`). -/
def is_leaf : HTree → Bool
  | .null => true
  | .mk _ l r _ => l == .null && r == .null

/-- A leaf node as built by `HuffmanNode(symbol)`. -/
def leaf (s : Nat) : HTree := .mk (some s) .null .null none

/-- An internal node as built by `HuffmanNode(None, left, right)`. -/
def node (l r : HTree) : HTree := .mk none l r none

/-- Structural equality of `HuffmanNode`s (Python `__eq__`), ignoring the
`number` attribute: erase all numbers, then compare with `=`. -/
def stripNum : HTree → HTree
  | .null => .null
  | .mk s l r _ => .mk s (stripNum l) (stripNum r) none

end HTree

/-- A `ReadNode` record `(l_type, l_data, r_type, r_data)`. -/
structure ReadNode where
  l_type : Nat
  l_data : Nat
  r_type : Nat
  r_data : Nat
deriving DecidableEq, Repr

/-- `get_bit(byte, bit_num)`: bit number `bit_num` from the right. -/
def get_bit (byte bit_num : Nat) : Nat :=
  (byte &&& (1 <<< bit_num)) >>> bit_num

/-- `byte_to_bits(byte)`: 8-character bit string, most significant first. -/
def byte_to_bits (byte : Nat) : List Char :=
  ((List.range 8).reverse).map (fun bit_num =>
    if get_bit byte bit_num = 1 then '1' else '0')

/-- The value of one character of a bit string, as `int(c)` reads it;
`none` when `int` would raise `ValueError`. -/
def bit_char_val (c : Char) : Option Nat :=
  if c = '0' then some 0 else if c = '1' then some 1 else none

/-- `bits_to_byte(bits)`: the int represented by `bits`, padded on the
right.  `none` when a character is not a digit or when `len(bits) > 8`
(then `7 - pos` is negative and the shift raises). -/
def bits_to_byte (bits : List Char) : Option Nat :=
  if bits.length ≤ 8 then
    (bits.mapM bit_char_val).map (fun vs =>
      ((vs.enum).map (fun p => p.2 <<< (7 - p.1))).sum)
  else none

/-- Insertion-order association-list update: increment the key if present,
else append it with count 1 (the body of `make_freq_dict`'s loop). -/
def dictIncr : List (Nat × Nat) → Nat → List (Nat × Nat)
  | [], cha => [(cha, 1)]
  | (k, v) :: rest, cha =>
      if k = cha then (k, v + 1) :: rest else (k, v) :: dictIncr rest cha

/-- `make_freq_dict(text)`: map each byte to its frequency, keys in first
appearance order (Python dict insertion order). -/
def make_freq_dict (text : List Nat) : List (Nat × Nat) :=
  text.foldl dictIncr []

/-- Association-list lookup, `none` for a `KeyError`. -/
def dictGet (d : List (Nat × Nat)) (k : Nat) : Option Nat :=
  (d.find? (fun p => p.1 = k)).map Prod.snd

/-- The tuple order used by `sort_lst.sort()` in `huffman_tree`: Python
compares `(freq, symbol)` tuples lexicographically. -/
def tupLe (a b : Nat × Nat) : Prop :=
  a.1 < b.1 ∨ (a.1 = b.1 ∧ a.2 ≤ b.2)

instance : DecidableRel tupLe := fun a b => by unfold tupLe; infer_instance

/-- The order used by `node_list.sort()` inside the merge loop: tuples
`(freq, HuffmanNode)` are compared by frequency.  (`nodes.py` is not in
the sources; per the spec's note on tie-breaking, node comparison never
orders two nodes, so a stable sort keyed by the frequency alone models the
Python sort.) -/
def wtLe (a b : Nat × HTree) : Prop := a.1 ≤ b.1

instance : DecidableRel wtLe := fun a b => by unfold wtLe; infer_instance

/-- The merge loop of `huffman_tree`: pop the two lowest entries, merge
them into an internal node, append and re-sort, until one node remains;
then return `node_list[0][1]`.  `none` on an empty list (`IndexError`)
or when the fuel runs out. -/
def hmerge : Nat → List (Nat × HTree) → Option HTree
  | _, [] => none
  | _, [x] => some x.2
  | 0, _ :: _ :: _ => none
  | fuel + 1, m1 :: m2 :: rest =>
      hmerge fuel
        (List.insertionSort wtLe
          (rest ++ [(m1.1 + m2.1, HTree.mk none m1.2 m2.2 none)]))

/-- `huffman_tree(freq_dict)`: build the Huffman tree for a frequency
dictionary.  `none` when `freq_dict` is empty (`node_list[0]` raises
`IndexError`). -/
def huffman_tree (freq_dict : List (Nat × Nat)) : Option HTree :=
  let sort_lst := List.insertionSort tupLe (freq_dict.map (fun i => (i.2, i.1)))
  let node_list := sort_lst.map (fun i => (i.1, HTree.leaf i.2))
  match node_list with
  | [x] => some (HTree.mk none x.2 .null none)
  | l => hmerge l.length l

/-- `contains(node, value)`: whether some node of the tree has `symbol ==
value`. -/
def contains : HTree → Option Nat → Bool
  | .null, _ => false
  | .mk s l r _, value => s == value || contains l value || contains r value

/-- `get_path(t, n)`: the prefix code for `n` ( `' '` on a `None` tree,
`''` at a node whose symbol is `n`, else `'0'`/`'1'` towards the side
whose subtree contains `n`, defaulting to the right). -/
def get_path : HTree → Option Nat → List Char
  | .null, _ => [' ']
  | .mk s l r _, n =>
      if s == n then []
      else if contains l n then '0' :: get_path l n
      else '1' :: get_path r n

/-- `gather_lists(list_)`: concatenate the sublists. -/
def gather_lists (list_ : List (List α)) : List α :=
  list_.foldl (· ++ ·) []

/-- `get_leaf(t)`: the list of leaf symbols, right subtree first. -/
def get_leaf : HTree → List (Option Nat)
  | .null => []
  | .mk s l r num =>
      if (HTree.mk s l r num).is_leaf then [s]
      else (if r ≠ .null then gather_lists [get_leaf r] else gather_lists []) ++
           (if l ≠ .null then gather_lists [get_leaf l] else gather_lists [])

/-- Python dict assignment `dic[k] = v`: overwrite in place or append. -/
def dictPut : List (Option Nat × List Char) → Option Nat → List Char →
    List (Option Nat × List Char)
  | [], k, v => [(k, v)]
  | (k', v') :: rest, k, v =>
      if k' = k then (k', v) :: rest else (k', v') :: dictPut rest k v

/-- `get_codes(tree)`: the dict mapping each leaf symbol to its path. -/
def get_codes (tree : HTree) : List (Option Nat × List Char) :=
  (get_leaf tree).foldl (fun dic a => dictPut dic a (get_path tree a)) []

/-- `number_internal(tree, n)`: number the internal nodes in postorder
starting at `n`; returns the updated tree (the Python version mutates it)
and the next unused number. -/
def number_internal : HTree → Nat → HTree × Nat
  | .null, n => (.null, n)
  | .mk s l r num, n =>
      if (HTree.mk s l r num).is_leaf then (.mk s l r num, n)
      else
        let p₁ := number_internal l n
        let p₂ := number_internal r p₁.2
        (.mk s p₁.1 p₂.1 (some p₂.2), p₂.2 + 1)

/-- `number_nodes(tree)`: postorder numbering from 0 (returns the updated
tree; the Python version mutates). -/
def number_nodes (tree : HTree) : HTree :=
  (number_internal tree 0).1

/-- `avg_length(tree, freq_dict)`: frequency-weighted average code length.
`none` when a code-table key is missing from `freq_dict` (`KeyError`) or
the total frequency is zero (`ZeroDivisionError`). -/
def avg_length (tree : HTree) (freq_dict : List (Nat × Nat)) : Option Rat :=
  let cod_dic := get_codes tree
  match cod_dic.mapM (fun kv =>
      match kv.1 with
      | some key => (dictGet freq_dict key).map (fun f => (kv.2.length * f, f))
      | none => none) with
  | none => none
  | some pairs =>
      let num := (pairs.map Prod.fst).sum
      let i := (pairs.map Prod.snd).sum
      if i = 0 then none else some ((num : Rat) / (i : Rat))

/-- Look a symbol up in a code table (`codes[i]`; `none` for `KeyError`). -/
def codesGet (codes : List (Option Nat × List Char)) (i : Nat) : Option (List Char) :=
  (codes.find? (fun p => p.1 == some i)).map Prod.snd

/-- `generate_compressed(text, codes)`: concatenate the codes of the
symbols of `text`, right-pad with `(8 - len % 8)` `'0'` bits (a full zero
byte when the length is already a multiple of 8), and pack each 8-bit
group into a byte. -/
def generate_compressed (text : List Nat) (codes : List (Option Nat × List Char)) :
    Option (List Nat) := do
  let rs ← text.mapM (codesGet codes)
  let r := rs.foldl (· ++ ·) []
  let reman := r.length % 8
  let r := r ++ List.replicate (8 - reman) '0'
  let num := r.length / 8
  (List.range num).mapM (fun i => bits_to_byte ((r.drop (8 * i)).take 8))

/-- One child record of `tree_to_bytes`: `[0, symbol]` for a leaf child,
`[1, number]` for an internal child, nothing for an absent child.  `none`
when `bytes(...)` would raise (a `None` symbol or number, or a value
above 255). -/
def child_record : HTree → Option (List Nat)
  | .null => some []
  | .mk s l r num =>
      if (HTree.mk s l r num).is_leaf then
        match s with
        | some sym => if sym ≤ 255 then some [0, sym] else none
        | none => none
      else
        match num with
        | some k => if k ≤ 255 then some [1, k] else none
        | none => none

/-- `tree_to_bytes(tree)`: postorder byte serialization of the internal
nodes.  Note a node with a single child emits a 2-byte record. -/
def tree_to_bytes : HTree → Option (List Nat)
  | .null => none
  | .mk _ l r _ => do
      let leftb ← if l ≠ .null then tree_to_bytes l else pure []
      let rightb ← if r ≠ .null then tree_to_bytes r else pure []
      let lrec ← if l ≠ .null then child_record l else pure []
      let rrec ← if r ≠ .null then child_record r else pure []
      pure (leftb ++ rightb ++ (lrec ++ rrec))

/-- `num_nodes_to_bytes(tree)`: the single byte `tree.number + 1`. -/
def num_nodes_to_bytes (tree : HTree) : Option (List Nat) :=
  match tree.number with
  | some n => if n + 1 ≤ 255 then some [n + 1] else none
  | none => none

/-- `size_to_bytes(size)`: 4-byte little-endian; `none` when the size does
not fit (`OverflowError`). -/
def size_to_bytes (size : Nat) : Option (List Nat) :=
  if size < 2 ^ 32 then
    some [size % 256, size / 256 % 256, size / 256 ^ 2 % 256, size / 256 ^ 3 % 256]
  else none

/-- `compress` with the file I/O stripped: the compressed byte sequence
for an in-memory byte sequence (the spec delegates actual file access to
an external collaborator).  The intermediate `print` of `avg_length` is
kept as a computation because it can raise. -/
def compress_bytes (text : List Nat) : Option (List Nat) := do
  let freq := make_freq_dict text
  let tree ← huffman_tree freq
  let codes := get_codes tree
  let tree := number_nodes tree
  let _ ← avg_length tree freq
  let hdr ← num_nodes_to_bytes tree
  let tb ← tree_to_bytes tree
  let sz ← size_to_bytes text.length
  let body ← generate_compressed text codes
  pure (hdr ++ tb ++ sz ++ body)

/-- Python list indexing `l[i]`, with negative indices counting from the
end; `none` for `IndexError`. -/
def pyGet (l : List α) (i : Int) : Option α :=
  if 0 ≤ i then l.get? i.toNat
  else if (-i) ≤ (l.length : Int) then l.get? (l.length - (-i).toNat) else none

/-- `generate_tree_general(node_lst, root_index)`: rebuild a tree from the
record list, resolving internal-child references as absolute list
indices.  `none` on an out-of-range index or when the fuel (the Python
recursion limit) runs out. -/
def generate_tree_general (fuel : Nat) (node_lst : List ReadNode) (root_index : Int) :
    Option HTree :=
  match fuel with
  | 0 => none
  | fuel + 1 => do
      let root ← pyGet node_lst root_index
      let lchild ←
        if root.l_type = 0 then pure (HTree.leaf root.l_data)
        else if root.l_type = 1 then
          generate_tree_general fuel node_lst (root.l_data : Int)
        else pure HTree.null
      let rchild ←
        if root.r_type = 0 then pure (HTree.leaf root.r_data)
        else if root.r_type = 1 then
          generate_tree_general fuel node_lst (root.r_data : Int)
        else pure HTree.null
      pure (HTree.mk none lchild rchild none)

/-- `count_internal(n)`: number of internal nodes. -/
def count_internal : HTree → Nat
  | .null => 0
  | .mk s l r num =>
      if (HTree.mk s l r num).is_leaf then 0
      else 1 + count_internal l + count_internal r

/-- `generate_tree_postorder(node_lst, root_index)`: rebuild a tree from a
record list assumed to be in postorder; the right child's root is the
previous record, the left child's root skips the right subtree's internal
nodes. -/
def generate_tree_postorder (fuel : Nat) (node_lst : List ReadNode) (root_index : Int) :
    Option HTree :=
  match fuel with
  | 0 => none
  | fuel + 1 => do
      let root ← pyGet node_lst root_index
      let rchild ←
        if root.r_type = 0 then pure (HTree.leaf root.r_data)
        else if root.r_type = 1 then
          generate_tree_postorder fuel node_lst (root_index - 1)
        else pure HTree.null
      let lchild ←
        if root.l_type = 0 then pure (HTree.leaf root.l_data)
        else if root.l_type = 1 then
          generate_tree_postorder fuel node_lst
            (root_index - (count_internal rchild : Int) - 1)
        else pure HTree.null
      pure (HTree.mk none lchild rchild none)

/-- `bytes(l)` applied to a list of collected symbols; `none` when an
element is `None` or out of byte range. -/
def pyBytes (l : List (Option Nat)) : Option (List Nat) :=
  l.mapM (fun o =>
    match o with
    | some s => if s ≤ 255 then some s else none
    | none => none)

/-- The bit-consuming loop of `generate_uncompressed`: walk `temp` down
the tree, emit a symbol and restart at the root on each leaf, and return
early once `size` symbols have been collected. -/
def gu_loop (tree : HTree) (size : Nat) :
    List Char → HTree → List (Option Nat) → List (Option Nat)
  | [], _, l => l
  | num :: rest, temp, l =>
      match temp with
      | .null => gu_loop tree size rest .null l
      | .mk s tl tr n =>
          let temp' := if num = '0' then tl else if num = '1' then tr
                       else HTree.mk s tl tr n
          match temp' with
          | .null => gu_loop tree size rest .null l
          | .mk s' tl' tr' n' =>
              if (HTree.mk s' tl' tr' n').is_leaf then
                let l' := l ++ [s']
                if l'.length = size then l'
                else gu_loop tree size rest tree l'
              else gu_loop tree size rest (HTree.mk s' tl' tr' n') l

/-- `generate_uncompressed(tree, text, size)`: decode `size` bytes from
the packed bits of `text` by walking the tree. -/
def generate_uncompressed (tree : HTree) (text : List Nat) (size : Nat) :
    Option (List Nat) :=
  let s := text.foldl (fun acc i => acc ++ byte_to_bits i) []
  pyBytes (gu_loop tree size s tree [])

/-- `bytes_to_nodes(buf)`: read the 4-byte records; `none` when a record
is cut short (`buf[i+k]` raises `IndexError`). -/
def bytes_to_nodes : List Nat → Option (List ReadNode)
  | [] => some []
  | a :: b :: c :: d :: rest =>
      (bytes_to_nodes rest).map (fun l => ⟨a, b, c, d⟩ :: l)
  | _ => none

/-- `bytes_to_size(buf)`: little-endian integer of a byte string. -/
def bytes_to_size (buf : List Nat) : Nat :=
  buf.foldr (fun b acc => b + 256 * acc) 0

/-- `uncompress` with the file I/O stripped: parse the header byte, the
node records, the size field, and decode the payload.  `fuel` bounds the
recursion of `generate_tree_general` (the Python recursion limit). -/
def uncompress_bytes (fuel : Nat) (data : List Nat) : Option (List Nat) := do
  let num_nodes ← data.head?
  let rest := data.tail
  let buf := rest.take (num_nodes * 4)
  let node_lst ← bytes_to_nodes buf
  let tree ← generate_tree_general fuel node_lst ((num_nodes : Int) - 1)
  let rest := rest.drop (num_nodes * 4)
  let size := bytes_to_size (rest.take 4)
  let text := rest.drop 4
  generate_uncompressed tree text size

/-! ## General lemmas about the embedding -/

/-- A successful `mapM` over `Option` preserves the length. -/
theorem mapM_option_length {α β : Type} (f : α → Option β) :
    ∀ (l : List α) (out : List β), l.mapM f = some out → out.length = l.length := by
  intro l
  induction l with
  | nil =>
      intro out h
      rw [List.mapM_nil] at h
      cases h
      rfl
  | cons a t ih =>
      intro out h
      rw [List.mapM_cons] at h
      cases hf : f a with
      | none => rw [hf] at h; simp at h
      | some b =>
          rw [hf] at h
          cases ht : t.mapM f with
          | none => rw [ht] at h; simp at h
          | some bs =>
              rw [ht] at h
              simp only [Option.bind_some, Option.pure_def, Option.bind_eq_bind,
                Option.some_bind, Option.some.injEq] at h
              simp [← h, ih bs ht]

/-- `number_internal` returns `n` plus the number of internal nodes. -/
theorem number_internal_snd (t : HTree) :
    ∀ n, (number_internal t n).2 = n + count_internal t := by
  induction t with
  | null => intro n; simp [number_internal, count_internal]
  | mk s l r num ihl ihr =>
      intro n
      by_cases h : (HTree.mk s l r num).is_leaf
      · simp [number_internal, count_internal, h]
      · simp only [number_internal, count_internal, h, if_false, Bool.false_eq_true]
        simp [ihl, ihr]
        omega

/-! ## C10: postorder numbering gives the root the highest number -/

/-- C10: for every tree whose root is an internal node, postorder
numbering of the internal nodes starting at 0 (`number_nodes`) assigns
the root the number `count_internal tree - 1`, the highest number used. -/
theorem claim_C10 (t : HTree) (h : t.is_leaf = false) :
    (number_nodes t).number = some (count_internal t - 1) := by
  cases t with
  | null => simp [HTree.is_leaf] at h
  | mk s l r num =>
      simp only [number_nodes, number_internal, h, Bool.false_eq_true, if_false,
        count_internal, HTree.number]
      simp [number_internal_snd]
      omega

/-- Witness for C10 at the doctest tree `HuffmanNode(None, 3, 2)`. -/
theorem claim_C10_witness :
    (HTree.node (.leaf 3) (.leaf 2)).is_leaf = false ∧
    (number_nodes (HTree.node (.leaf 3) (.leaf 2))).number =
      some (count_internal (HTree.node (.leaf 3) (.leaf 2)) - 1) :=
  ⟨by decide, claim_C10 _ (by decide)⟩

/-! ## C5: compressing the empty byte sequence -/

/-- C5 counterexample: compressing the empty byte sequence does not
produce a minimal valid output; it raises (`huffman_tree` indexes an
empty list), modelled as `none`. -/
theorem claim_C5_counterexample : compress_bytes [] = none := by decide

/-- C5 amended: on the empty byte sequence the frequency map is empty,
`huffman_tree` fails with an `IndexError`, and `compress` therefore
produces no output at all. -/
theorem claim_C5 :
    make_freq_dict [] = [] ∧ huffman_tree [] = none ∧ compress_bytes [] = none := by
  decide

/-! ## C6: padding of `generate_compressed` -/

/-- The total bit length of the translated text: the length of the
accumulator `r` of `generate_compressed` before padding. -/
def code_bit_length (text : List Nat) (codes : List (Option Nat × List Char)) :
    Option Nat :=
  (text.mapM (codesGet codes)).map (fun rs => (rs.foldl (· ++ ·) []).length)

/-- C6 counterexample: eight symbols with the 1-bit code `'0'` give a bit
length of exactly 8, so the claim predicts `⌈8/8⌉ = 1` output byte with
no padding; the code emits 2 bytes (a full extra zero byte). -/
theorem claim_C6_counterexample :
    (generate_compressed (List.replicate 8 0) [(some 0, ['0'])]).map List.length
      = some 2 ∧
    code_bit_length (List.replicate 8 0) [(some 0, ['0'])] = some 8 ∧
    ((8 + 7) / 8 : Nat) = 1 := by decide

/-- C6 amended: `generate_compressed` always pads with `8 - bits % 8`
zero bits — between 1 and 8, a full zero byte when the bit length is
already a multiple of 8 — so the output length in bytes is always
`bits / 8 + 1` (which is `⌈bits/8⌉` exactly when 8 does not divide
`bits`). -/
theorem claim_C6 (text : List Nat) (codes : List (Option Nat × List Char))
    (bits : Nat) (out : List Nat)
    (hb : code_bit_length text codes = some bits)
    (ho : generate_compressed text codes = some out) :
    out.length = bits / 8 + 1 := by
  unfold code_bit_length at hb
  unfold generate_compressed at ho
  cases hm : text.mapM (codesGet codes) with
  | none => rw [hm] at hb; simp at hb
  | some rs =>
      rw [hm] at hb
      rw [hm] at ho
      simp only [Option.map_some', Option.some.injEq] at hb
      simp only [Option.bind_eq_bind, Option.some_bind] at ho
      have hlen := mapM_option_length _ _ _ ho
      rw [List.length_range] at hlen
      rw [hlen]
      simp only [List.length_append, List.length_replicate]
      rw [hb]
      omega

/-- Witness for C6 at the doctest input (7 code bits, 1 output byte). -/
theorem claim_C6_witness : ([184] : List Nat).length = 7 / 8 + 1 :=
  claim_C6 [1, 2, 1, 0]
    [(some 0, ['0']), (some 1, ['1', '0']), (some 2, ['1', '1'])] 7 [184]
    (by decide) (by decide)

/-! ## C7: truncated bitstreams -/

/-- C7 counterexample: with a declared count of 1 and an empty bitstream
(fewer bits than required), `generate_uncompressed` does not fail with an
end-of-stream error: it silently returns an output of 0 symbols, shorter
than declared. -/
theorem claim_C7_counterexample :
    generate_uncompressed (HTree.node (.leaf 0) (.leaf 1)) [] 1 = some [] := by
  decide

/-- The decode loop never grows the accumulator beyond `size` once it is
below `size`. -/
theorem gu_loop_length (tree : HTree) (size : Nat) :
    ∀ (bits : List Char) (temp : HTree) (l : List (Option Nat)),
      l.length < size → (gu_loop tree size bits temp l).length ≤ size := by
  intro bits
  induction bits with
  | nil => intro temp l h; simpa [gu_loop] using Nat.le_of_lt h
  | cons c rest ih =>
      intro temp l h
      cases temp with
      | null => simpa only [gu_loop] using ih _ _ h
      | mk s tl tr n =>
          simp only [gu_loop]
          split
          · exact ih _ _ h
          · split
            · split
              · simp_all
              · apply ih
                simp_all
                omega
            · exact ih _ _ h

/-- C7 amended: decoding a truncated bitstream does not fail; for any
declared count `size ≥ 1` the decoder returns the symbols decoded before
the bits ran out — at most `size` of them, possibly fewer, with no
error. -/
theorem claim_C7 (tree : HTree) (text : List Nat) (size : Nat) (out : List Nat)
    (hs : 1 ≤ size) (h : generate_uncompressed tree text size = some out) :
    out.length ≤ size := by
  unfold generate_uncompressed at h
  have hlen := mapM_option_length _ _ _ h
  rw [hlen]
  exact gu_loop_length tree size _ tree [] (by simpa using hs)

/-- Witness for C7: the counterexample input decodes to zero symbols. -/
theorem claim_C7_witness : ([] : List Nat).length ≤ 1 :=
  claim_C7 (HTree.node (.leaf 0) (.leaf 1)) [] 1 [] (le_refl 1) (by decide)

/-! ## C1 and C4: the single-symbol serialization bug -/

/-- On the record list produced by compressing a one-symbol input, the
general reconstruction chases the right-child reference `(1, 0)` back to
record 0 itself and never terminates, whatever the recursion budget. -/
theorem gen_general_self_loop :
    ∀ fuel, generate_tree_general fuel [⟨0, 42, 1, 0⟩] 0 = none := by
  intro fuel
  induction fuel with
  | zero => rfl
  | succ fuel ih =>
      simp only [generate_tree_general, pyGet]
      norm_num
      simp [ih]

/-- C1: the compressed form of the one-byte input `[42]` is
`[1, 0, 42, 1, 0, 0, 0, 0]` — the header declares one 4-byte node record
but `tree_to_bytes` wrote only 2 tree bytes — and decompressing it never
terminates (`generate_tree_general` chases the self-referential record
forever), so `decompress(compress([42]))` does not yield `[42]`. -/
theorem claim_C1 :
    compress_bytes [42] = some [1, 0, 42, 1, 0, 0, 0, 0] ∧
    ∀ fuel, uncompress_bytes fuel [1, 0, 42, 1, 0, 0, 0, 0] = none := by
  refine ⟨by decide, fun fuel => ?_⟩
  simp only [uncompress_bytes]
  norm_num
  simp [show bytes_to_nodes [0, 42, 1, 0] = some [⟨0, 42, 1, 0⟩] from rfl,
    gen_general_self_loop fuel]

/-- C4: for the frequency map `{42: 100}` the tree is the internal root
with the single leaf child 42, whose code `'0'` has length 1 (≥ 1) — that
part of the claim holds.  But compressing the 100-byte input of that one
symbol then decompressing does not recover the input: the root's 2-byte
tree record makes the reader consume two size bytes as record bytes, so
it reads a size of 0 and decodes all 88 padded bits, returning 88 copies
of the symbol instead of 100. -/
theorem claim_C4 :
    huffman_tree [(42, 100)] = some (HTree.mk none (.leaf 42) .null none) ∧
    codesGet (get_codes (HTree.mk none (.leaf 42) .null none)) 42 = some ['0'] ∧
    make_freq_dict (List.replicate 100 42) = [(42, 100)] ∧
    compress_bytes (List.replicate 100 42) =
      some [1, 0, 42, 100, 0, 0, 0, 0, 0, 0, 0, 0, 0, 0, 0, 0, 0, 0, 0, 0] ∧
    uncompress_bytes 1000 [1, 0, 42, 100, 0, 0, 0, 0, 0, 0, 0, 0, 0, 0, 0, 0, 0, 0, 0, 0]
      = some (List.replicate 88 42) ∧
    (List.replicate 88 42 : List Nat) ≠ List.replicate 100 42 := by
  set_option maxRecDepth 10000 in decide

/-! ## Well-formed Huffman trees and prefix-freeness (C3) -/

/-- Well-formed trees per the spec's data model: every non-`null` node is
either a leaf carrying a symbol or an internal node whose symbol is
`None`. -/
def wf : HTree → Bool
  | .null => true
  | .mk s l r num =>
      (if (HTree.mk s l r num).is_leaf then s.isSome else s == none) && wf l && wf r

theorem is_leaf_iff {s : Option Nat} {l r : HTree} {num : Option Nat} :
    (HTree.mk s l r num).is_leaf = true ↔ l = .null ∧ r = .null := by
  simp [HTree.is_leaf]

theorem wf_parts {s : Option Nat} {l r : HTree} {num : Option Nat}
    (h : wf (HTree.mk s l r num) = true) :
    (if (HTree.mk s l r num).is_leaf then s.isSome else s == none) = true ∧
      wf l = true ∧ wf r = true := by
  simpa [wf, Bool.and_eq_true, and_assoc] using h

theorem gather_lists_singleton (x : List α) : gather_lists [x] = x := by
  simp [gather_lists]

/-- On an internal node, `get_leaf` is the right leaves followed by the
left leaves. -/
theorem get_leaf_internal {s : Option Nat} {l r : HTree} {num : Option Nat}
    (h : (HTree.mk s l r num).is_leaf = false) :
    get_leaf (HTree.mk s l r num) = get_leaf r ++ get_leaf l := by
  simp only [get_leaf, h, Bool.false_eq_true, if_false]
  rcases r with _ | ⟨rs, rl, rr, rn⟩ <;> rcases l with _ | ⟨ls, ll, lr, ln⟩ <;>
    simp [gather_lists_singleton, gather_lists, get_leaf]

/-- In a well-formed tree every collected leaf symbol is a `some`. -/
theorem get_leaf_isSome (t : HTree) (hwf : wf t = true) :
    ∀ x ∈ get_leaf t, x.isSome = true := by
  induction t with
  | null => simp [get_leaf]
  | mk s l r num ihl ihr =>
      obtain ⟨head, hwl, hwr⟩ := wf_parts hwf
      by_cases hleaf : (HTree.mk s l r num).is_leaf = true
      · rw [hleaf] at head
        simp only [if_true] at head
        obtain ⟨hl, hr⟩ := is_leaf_iff.mp hleaf
        subst hl; subst hr
        intro x hx
        simp only [get_leaf, HTree.is_leaf] at hx
        simp at hx
        simpa [hx] using head
      · have hleaf' : (HTree.mk s l r num).is_leaf = false := by
          simpa using hleaf
        rw [get_leaf_internal hleaf']
        intro x hx
        rcases List.mem_append.mp hx with hx | hx
        · exact ihr hwr x hx
        · exact ihl hwl x hx

/-- In a well-formed tree, `contains` on a concrete symbol is exactly
membership in the leaf list. -/
theorem contains_iff_mem (t : HTree) (hwf : wf t = true) (a : Nat) :
    contains t (some a) = true ↔ some a ∈ get_leaf t := by
  induction t with
  | null => simp [contains, get_leaf]
  | mk s l r num ihl ihr =>
      obtain ⟨head, hwl, hwr⟩ := wf_parts hwf
      by_cases hleaf : (HTree.mk s l r num).is_leaf = true
      · obtain ⟨hl, hr⟩ := is_leaf_iff.mp hleaf
        subst hl; subst hr
        constructor
        · intro h
          simp [contains] at h
          simp [get_leaf, HTree.is_leaf, h]
        · intro h
          simp [get_leaf, HTree.is_leaf] at h
          simp [contains, h]
      · have hleaf' : (HTree.mk s l r num).is_leaf = false := by
          simpa using hleaf
        rw [hleaf'] at head
        simp only [Bool.false_eq_true, if_false, beq_iff_eq] at head
        rw [get_leaf_internal hleaf']
        subst head
        simp [contains, ihl hwl, ihr hwr, List.mem_append, or_comm]

/-- Prefix-freeness of `get_path` on well-formed trees with distinct leaf
symbols: paths of distinct leaf symbols are never prefixes of one
another. -/
theorem get_path_not_prefix (t : HTree) (hwf : wf t = true)
    (hnd : (get_leaf t).Nodup) :
    ∀ a b, a ∈ get_leaf t → b ∈ get_leaf t → a ≠ b →
      ¬ (get_path t a <+: get_path t b) := by
  induction t with
  | null => intro a b ha; simp [get_leaf] at ha
  | mk s l r num ihl ihr =>
      intro a b ha hb hab
      obtain ⟨head, hwl, hwr⟩ := wf_parts hwf
      by_cases hleaf : (HTree.mk s l r num).is_leaf = true
      · obtain ⟨hl, hr⟩ := is_leaf_iff.mp hleaf
        subst hl; subst hr
        simp only [get_leaf, HTree.is_leaf] at ha hb
        simp at ha hb
        exact absurd (ha.trans hb.symm) hab
      · have hleaf' : (HTree.mk s l r num).is_leaf = false := by
          simpa using hleaf
        rw [hleaf'] at head
        simp only [Bool.false_eq_true, if_false, beq_iff_eq] at head
        subst head
        obtain ⟨av, hav⟩ := Option.isSome_iff_exists.mp
          (get_leaf_isSome _ hwf a ha)
        obtain ⟨bv, hbv⟩ := Option.isSome_iff_exists.mp
          (get_leaf_isSome _ hwf b hb)
        subst hav; subst hbv
        rw [get_leaf_internal hleaf'] at ha hb hnd
        have hndl : (get_leaf l).Nodup := hnd.of_append_right
        have hndr : (get_leaf r).Nodup := hnd.of_append_left
        simp only [get_path, beq_iff_eq, reduceCtorEq, if_false]
        by_cases hal : some av ∈ get_leaf l
        · have hca : contains l (some av) = true := (contains_iff_mem l hwl av).mpr hal
          by_cases hbl : some bv ∈ get_leaf l
          · have hcb : contains l (some bv) = true := (contains_iff_mem l hwl bv).mpr hbl
            simp only [hca, hcb, if_true, List.cons_prefix_cons]
            rintro ⟨-, hpre⟩
            exact ihl hwl hndl _ _ hal hbl hab hpre
          · have hcb : contains l (some bv) = false := by
              cases hc : contains l (some bv)
              · rfl
              · exact absurd ((contains_iff_mem l hwl bv).mp hc) hbl
            simp [hca, hcb, List.cons_prefix_cons]
        · have hca : contains l (some av) = false := by
            cases hc : contains l (some av)
            · rfl
            · exact absurd ((contains_iff_mem l hwl av).mp hc) hal
          have har : some av ∈ get_leaf r := by
            rcases List.mem_append.mp ha with h | h
            · exact h
            · exact absurd h hal
          by_cases hbl : some bv ∈ get_leaf l
          · have hcb : contains l (some bv) = true := (contains_iff_mem l hwl bv).mpr hbl
            simp [hca, hcb, List.cons_prefix_cons]
          · have hcb : contains l (some bv) = false := by
              cases hc : contains l (some bv)
              · rfl
              · exact absurd ((contains_iff_mem l hwl bv).mp hc) hbl
            have hbr : some bv ∈ get_leaf r := by
              rcases List.mem_append.mp hb with h | h
              · exact h
              · exact absurd h hbl
            simp only [hca, hcb, Bool.false_eq_true, if_false, List.cons_prefix_cons]
            rintro ⟨-, hpre⟩
            exact ihr hwr hndr _ _ har hbr hab hpre

/-- The leaf symbols of all trees in a merge-loop list. -/
def listSyms (L : List (Nat × HTree)) : List (Option Nat) :=
  (L.map (fun p => get_leaf p.2)).flatten

/-- Invariant of the merge loop of `huffman_tree`: every entry is a
non-`null` well-formed tree, and the leaf symbols across all entries are
distinct. -/
def goodList (L : List (Nat × HTree)) : Prop :=
  (∀ p ∈ L, p.2 ≠ .null ∧ wf p.2 = true) ∧ (listSyms L).Nodup

theorem listSyms_perm {L L' : List (Nat × HTree)} (h : L.Perm L') :
    (listSyms L).Perm (listSyms L') :=
  (h.map _).flatten

theorem goodList_perm {L L' : List (Nat × HTree)} (h : L.Perm L')
    (hg : goodList L) : goodList L' :=
  ⟨fun p hp => hg.1 p (h.symm.subset hp), hg.2.perm (listSyms_perm h)⟩

/-- The merged node of one loop iteration is a well-formed internal node
whose leaves are the leaves of the two merged trees. -/
theorem merge_node_spec {l r : HTree} (hl : l ≠ .null) (_hr : r ≠ .null)
    (hwl : wf l = true) (hwr : wf r = true) :
    (HTree.mk none l r none) ≠ .null ∧
    wf (HTree.mk none l r none) = true ∧
    get_leaf (HTree.mk none l r none) = get_leaf r ++ get_leaf l := by
  have hleaf : (HTree.mk none l r none).is_leaf = false := by
    simp [HTree.is_leaf]
    intro h
    exact absurd h hl
  refine ⟨by simp, ?_, get_leaf_internal hleaf⟩
  simp [wf, hleaf, hwl, hwr]

/-- What one successful run of the merge loop guarantees: a non-`null`
well-formed result whose leaf symbols are a permutation of all the input
entries' leaf symbols, without duplicates. -/
theorem hmerge_spec :
    ∀ (fuel : Nat) (L : List (Nat × HTree)) (t : HTree),
      hmerge fuel L = some t → goodList L →
      t ≠ .null ∧ wf t = true ∧ (get_leaf t).Nodup ∧ (get_leaf t).Perm (listSyms L) := by
  intro fuel
  induction fuel with
  | zero =>
      intro L t h hg
      match L, h with
      | [x], h =>
          cases h
          obtain ⟨hx, hnd⟩ := hg
          obtain ⟨h1, h2⟩ := hx x (by simp)
          refine ⟨h1, h2, ?_, ?_⟩
          · simpa [listSyms] using hnd
          · simp [listSyms]
  | succ fuel ih =>
      intro L t h hg
      match L, h with
      | [x], h =>
          cases h
          obtain ⟨hx, hnd⟩ := hg
          obtain ⟨h1, h2⟩ := hx x (by simp)
          refine ⟨h1, h2, ?_, ?_⟩
          · simpa [listSyms] using hnd
          · simp [listSyms]
      | m1 :: m2 :: rest, h =>
          have hm1 := hg.1 m1 (by simp)
          have hm2 := hg.1 m2 (by simp)
          obtain ⟨hnew_ne, hnew_wf, hnew_leaf⟩ :=
            merge_node_spec hm1.1 hm2.1 hm1.2 hm2.2
          set newp : Nat × HTree :=
            (m1.1 + m2.1, HTree.mk none m1.2 m2.2 none) with hnewp
          have hperm0 : (listSyms (rest ++ [newp])).Perm (listSyms (m1 :: m2 :: rest)) := by
            simp only [listSyms, List.map_append, List.map_cons, List.flatten_append,
              List.flatten_cons, hnewp, hnew_leaf]
            simp only [List.map_nil, List.flatten_nil, List.append_nil]
            refine List.Perm.trans List.perm_append_comm ?_
            refine List.Perm.trans (List.perm_append_comm.append_right _) ?_
            simp only [List.append_assoc]
            exact List.Perm.refl _
          have hgood : goodList (rest ++ [newp]) := by
            constructor
            · intro p hp
              rcases List.mem_append.mp hp with hp | hp
              · exact hg.1 p (by simp [hp])
              · simp at hp
                subst hp
                exact ⟨hnew_ne, hnew_wf⟩
            · exact hg.2.perm hperm0.symm
          have hsorted := List.perm_insertionSort wtLe (rest ++ [newp])
          obtain ⟨h1, h2, h3, h4⟩ :=
            ih (List.insertionSort wtLe (rest ++ [newp])) t h
              (goodList_perm hsorted.symm hgood)
          exact ⟨h1, h2, h3,
            h4.trans ((listSyms_perm hsorted).trans hperm0)⟩

theorem listSyms_leaves (lst : List (Nat × Nat)) :
    listSyms (lst.map (fun i => (i.1, HTree.leaf i.2))) =
      lst.map (fun i => some i.2) := by
  induction lst with
  | nil => simp [listSyms]
  | cons a rest ih =>
      simp only [List.map_cons, listSyms, List.flatten_cons] at ih ⊢
      rw [ih]
      simp [get_leaf, HTree.leaf, HTree.is_leaf]

/-- What a successful `huffman_tree` run guarantees (for a frequency
dictionary with distinct keys, as `make_freq_dict` always produces): a
non-`null` well-formed tree whose leaf symbols are exactly the keys,
without duplicates. -/
theorem huffman_tree_spec (freq : List (Nat × Nat)) (t : HTree)
    (hnd : (freq.map Prod.fst).Nodup) (h : huffman_tree freq = some t) :
    t ≠ .null ∧ wf t = true ∧ (get_leaf t).Nodup ∧
      (get_leaf t).Perm (freq.map (fun p => some p.1)) := by
  unfold huffman_tree at h
  dsimp only at h
  set sort_lst := List.insertionSort tupLe (freq.map (fun i => (i.2, i.1)))
    with hsort
  have hperm1 : sort_lst.Perm (freq.map (fun i => (i.2, i.1))) :=
    List.perm_insertionSort _ _
  have hsyms : (listSyms (sort_lst.map (fun i => (i.1, HTree.leaf i.2)))).Perm
      (freq.map (fun p => some p.1)) := by
    rw [listSyms_leaves]
    have := hperm1.map (fun i => some i.2)
    refine this.trans ?_
    rw [List.map_map]
    exact List.Perm.refl _
  have hgood : goodList (sort_lst.map (fun i => (i.1, HTree.leaf i.2))) := by
    constructor
    · intro p hp
      simp only [List.mem_map] at hp
      obtain ⟨i, -, rfl⟩ := hp
      exact ⟨by simp [HTree.leaf], by simp [wf, HTree.leaf, HTree.is_leaf]⟩
    · refine List.Nodup.perm ?_ hsyms.symm
      have : (freq.map (fun p => some p.1)) =
          (freq.map Prod.fst).map some := by
        simp [List.map_map]
      rw [this]
      exact hnd.map (Option.some_injective _)
  rcases hcase : sort_lst.map (fun i => (i.1, HTree.leaf i.2)) with - | ⟨x, xs⟩
  · rw [hcase] at h
    simp [hmerge] at h
  · rcases xs with - | ⟨y, rest⟩
    · rw [hcase] at h
      simp only [List.map_cons] at h
      cases h
      rw [hcase] at hgood hsyms
      obtain ⟨hx1, hx2⟩ := hgood.1 x (by simp)
      have hleaf : (HTree.mk none x.2 .null none).is_leaf = false := by
        simp [HTree.is_leaf]
        intro hnull
        exact absurd hnull hx1
      have hgl : get_leaf (HTree.mk none x.2 .null none) = get_leaf x.2 := by
        rw [get_leaf_internal hleaf]
        simp [get_leaf]
      refine ⟨by simp, ?_, ?_, ?_⟩
      · simp [wf, hleaf, hx2]
      · rw [hgl]
        have := hgood.2
        simpa [listSyms] using this
      · rw [hgl]
        refine List.Perm.trans ?_ hsyms
        simp [listSyms]
    · rw [hcase] at h
      have := hmerge_spec _ _ t h (hcase ▸ hgood)
      exact ⟨this.1, this.2.1, this.2.2.1,
        this.2.2.2.trans (hcase ▸ hsyms)⟩

theorem dictPut_mem {dic : List (Option Nat × List Char)}
    {k : Option Nat} {v : List Char} :
    ∀ p ∈ dictPut dic k v, p ∈ dic ∨ p = (k, v) := by
  induction dic with
  | nil => simp [dictPut]
  | cons q rest ih =>
      intro p hp
      obtain ⟨qk, qv⟩ := q
      simp only [dictPut] at hp
      by_cases hq : qk = k
      · rw [if_pos hq] at hp
        rcases List.mem_cons.mp hp with hp | hp
        · right; rw [hp, hq]
        · left; exact List.mem_cons_of_mem _ hp
      · rw [if_neg hq] at hp
        rcases List.mem_cons.mp hp with hp | hp
        · left; exact hp ▸ List.mem_cons_self _ _
        · rcases ih p hp with hin | hin
          · left; exact List.mem_cons_of_mem _ hin
          · right; exact hin

/-- Every entry of the code table is a leaf symbol paired with its
`get_path`. -/
theorem get_codes_spec (t : HTree) :
    ∀ p ∈ get_codes t, p.1 ∈ get_leaf t ∧ p.2 = get_path t p.1 := by
  unfold get_codes
  suffices h : ∀ (keys : List (Option Nat)) (dic : List (Option Nat × List Char)),
      (∀ p ∈ dic, p.1 ∈ get_leaf t ∧ p.2 = get_path t p.1) →
      (∀ a ∈ keys, a ∈ get_leaf t) →
      ∀ p ∈ keys.foldl (fun dic a => dictPut dic a (get_path t a)) dic,
        p.1 ∈ get_leaf t ∧ p.2 = get_path t p.1 by
    exact h (get_leaf t) [] (by simp) (fun a ha => ha)
  intro keys
  induction keys with
  | nil => intro dic hdic _ p hp; exact hdic p hp
  | cons a keys ih =>
      intro dic hdic hkeys p hp
      simp only [List.foldl_cons] at hp
      refine ih _ ?_ (fun x hx => hkeys x (List.mem_cons_of_mem _ hx)) p hp
      intro q hq
      rcases dictPut_mem q hq with hin | hin
      · exact hdic q hin
      · rw [hin]
        exact ⟨hkeys a (List.mem_cons_self _ _), rfl⟩

/-- C3: for every frequency map (with the distinct keys a Python dict
guarantees), the code table of the tree built by `huffman_tree` is
prefix-free: codes of distinct symbols are never prefixes of one
another. -/
theorem claim_C3 (freq : List (Nat × Nat)) (t : HTree)
    (hnd : (freq.map Prod.fst).Nodup) (ht : huffman_tree freq = some t)
    (a b : Option Nat) (ca cb : List Char)
    (hca : (a, ca) ∈ get_codes t) (hcb : (b, cb) ∈ get_codes t)
    (hab : a ≠ b) : ¬ (ca <+: cb) := by
  obtain ⟨-, hwf, hndl, -⟩ := huffman_tree_spec freq t hnd ht
  obtain ⟨hma, hpa⟩ := get_codes_spec t _ hca
  obtain ⟨hmb, hpb⟩ := get_codes_spec t _ hcb
  dsimp only at hma hpa hmb hpb
  rw [hpa, hpb]
  exact get_path_not_prefix t hwf hndl a b hma hmb hab

/-- Witness for C3 at the doctest frequency map `{2: 6, 3: 4}`. -/
theorem claim_C3_witness : ¬ ((['1'] : List Char) <+: ['0']) :=
  claim_C3 [(2, 6), (3, 4)]
    (HTree.mk none (.leaf 3) (.leaf 2) none)
    (by decide) (by decide)
    (some 2) (some 3) ['1'] ['0'] (by decide) (by decide) (by decide)

/-! ## C2: serialization round-trip -/

/-- Full well-formed trees: every node is a symbol-carrying leaf or an
internal node with two children and no symbol.  (The single-symbol tree
built by `huffman_tree` is well formed but not full.) -/
def full : HTree → Bool
  | .null => false
  | .mk s l r _ =>
      (l == .null && r == .null && s.isSome) ||
      (l != .null && r != .null && s == none && full l && full r)

/-- All symbols stored in the tree fit in a byte. -/
def bytesized : HTree → Bool
  | .null => true
  | .mk s l r _ =>
      (match s with | some v => v ≤ 255 | none => true) && bytesized l && bytesized r

theorem stripNum_null {t : HTree} : t.stripNum = .null ↔ t = .null := by
  cases t <;> simp [HTree.stripNum]

theorem stripNum_beq_null (t : HTree) :
    (t.stripNum == HTree.null) = (t == HTree.null) := by
  cases t <;> rfl

theorem is_leaf_stripNum (t : HTree) : t.stripNum.is_leaf = t.is_leaf := by
  cases t with
  | null => rfl
  | mk s l r num =>
      simp only [HTree.stripNum, HTree.is_leaf, stripNum_beq_null]

theorem stripNum_count (t : HTree) :
    count_internal t.stripNum = count_internal t := by
  induction t with
  | null => rfl
  | mk s l r num ihl ihr =>
      by_cases h : (HTree.mk s l r num).is_leaf
      · have h' : (HTree.stripNum (HTree.mk s l r num)).is_leaf = true := by
          rw [is_leaf_stripNum]; exact h
        simp only [HTree.stripNum] at h' ⊢
        simp [count_internal, h, h']
      · have h' : (HTree.stripNum (HTree.mk s l r num)).is_leaf = false := by
          rw [is_leaf_stripNum]; simpa using h
        simp only [HTree.stripNum] at h' ⊢
        simp [count_internal, h', (by simpa using h : (HTree.mk s l r num).is_leaf = false),
          ihl, ihr]

/-- `number_internal` never turns a node into `null` or vice versa. -/
theorem number_internal_ne_null {t : HTree} (h : t ≠ .null) (n : Nat) :
    (number_internal t n).1 ≠ .null := by
  cases t with
  | null => exact absurd rfl h
  | mk s l r num =>
      by_cases hleaf : (HTree.mk s l r num).is_leaf
      · simp [number_internal, hleaf]
      · simp [number_internal, hleaf]

/-- `number_internal` fixes leaves. -/
theorem number_internal_leaf {t : HTree} (h : t.is_leaf = true) (n : Nat) :
    number_internal t n = (t, n) := by
  cases t with
  | null => rfl
  | mk s l r num => simp [number_internal, h]

theorem full_parts {s : Option Nat} {l r : HTree} {num : Option Nat}
    (h : full (HTree.mk s l r num) = true) :
    (l = .null ∧ r = .null ∧ s.isSome = true) ∨
    (l ≠ .null ∧ r ≠ .null ∧ s = none ∧ full l = true ∧ full r = true) := by
  simp only [full, Bool.or_eq_true, Bool.and_eq_true, beq_iff_eq, bne_iff_ne,
    Option.isSome_iff_exists] at h
  rcases h with ⟨⟨h1, h2⟩, h3⟩ | ⟨⟨⟨⟨h1, h2⟩, h3⟩, h4⟩, h5⟩
  · exact Or.inl ⟨h1, h2, Option.isSome_iff_exists.mpr h3⟩
  · exact Or.inr ⟨h1, h2, h3, h4, h5⟩

theorem bytesized_parts {s : Option Nat} {l r : HTree} {num : Option Nat}
    (h : bytesized (HTree.mk s l r num) = true) :
    (∀ v, s = some v → v ≤ 255) ∧ bytesized l = true ∧ bytesized r = true := by
  simp only [bytesized, Bool.and_eq_true] at h
  obtain ⟨⟨h1, h2⟩, h3⟩ := h
  refine ⟨?_, h2, h3⟩
  intro v hv
  rw [hv] at h1
  simpa using h1

/-- `bytes_to_nodes` distributes over appending a parsed prefix. -/
theorem bytes_to_nodes_append :
    ∀ (A : List Nat) (ra : List ReadNode) (B : List Nat),
      bytes_to_nodes A = some ra →
      bytes_to_nodes (A ++ B) = (bytes_to_nodes B).map (fun rb => ra ++ rb) := by
  intro A
  induction A using bytes_to_nodes.induct with
  | case1 =>
      intro ra B h
      cases h
      simp
  | case2 a b c d rest ih =>
      intro ra B h
      simp only [bytes_to_nodes] at h
      cases hres : bytes_to_nodes rest with
      | none => rw [hres] at h; simp at h
      | some rr =>
          rw [hres] at h
          simp only [Option.map_some', Option.some.injEq] at h
          subst h
          have hih := ih rr B hres
          simp only [List.cons_append, bytes_to_nodes, List.append_eq]
          rw [hih]
          cases bytes_to_nodes B <;> simp
  | case3 x h1 h2 =>
      intro ra B h
      exfalso
      rcases x with - | ⟨a, - | ⟨b, - | ⟨c, - | ⟨d, rest⟩⟩⟩⟩
      · exact h1 rfl
      · simp [bytes_to_nodes] at h
      · simp [bytes_to_nodes] at h
      · simp [bytes_to_nodes] at h
      · exact h2 a b c d rest rfl

theorem pyGet_ofNat (L : List α) (k : Nat) :
    pyGet L ((k : Nat) : Int) = L.get? k := by
  simp [pyGet]

theorem full_leaf_shape {t : HTree} (hf : full t = true) (hl : t.is_leaf = true) :
    ∃ v num, t = HTree.mk (some v) .null .null num := by
  cases t with
  | null => simp [full] at hf
  | mk s l r num =>
      obtain ⟨h1, h2⟩ := is_leaf_iff.mp hl
      subst h1; subst h2
      rcases full_parts hf with ⟨-, -, h3⟩ | ⟨h3, -⟩
      · obtain ⟨v, hv⟩ := Option.isSome_iff_exists.mp h3
        exact ⟨v, num, by rw [hv]⟩
      · exact absurd rfl h3

theorem child_record_internal {t : HTree} (hne : t ≠ .null) (hleaf : t.is_leaf = false)
    {k : Nat} (hnum : t.number = some k) (hk : k ≤ 255) :
    child_record t = some [1, k] := by
  cases t with
  | null => exact absurd rfl hne
  | mk s l r num =>
      simp only [HTree.number] at hnum
      subst hnum
      simp [child_record, hleaf, hk]

theorem number_internal_null_iff {t : HTree} {n : Nat} :
    (number_internal t n).1 = .null ↔ t = .null := by
  cases t with
  | null => simp [number_internal]
  | mk s l r num =>
      by_cases hleaf : (HTree.mk s l r num).is_leaf <;> simp [number_internal, hleaf]

/-- Root number and leafness of a numbered internal tree. -/
theorem number_internal_root (t : HTree) (h : t.is_leaf = false) (n : Nat) :
    (number_internal t n).1.number = some (n + count_internal t - 1) ∧
    (number_internal t n).1.is_leaf = false := by
  cases t with
  | null => simp [HTree.is_leaf] at h
  | mk s l r num =>
      simp only [number_internal, h, Bool.false_eq_true, if_false]
      constructor
      · simp only [HTree.number, number_internal_snd, count_internal, h,
          Bool.false_eq_true, if_false, Option.some.injEq]
        omega
      · have hnotboth : ¬ (l = .null ∧ r = .null) := by
          rintro ⟨h1, h2⟩
          rw [h1, h2] at h
          simp [HTree.is_leaf] at h
        rw [Bool.eq_false_iff]
        intro hc
        simp only [HTree.is_leaf, Bool.and_eq_true, beq_iff_eq] at hc
        exact hnotboth ⟨number_internal_null_iff.mp hc.1, number_internal_null_iff.mp hc.2⟩

theorem count_internal_pos {t : HTree} (hne : t ≠ .null) (h : t.is_leaf = false) :
    1 ≤ count_internal t := by
  cases t with
  | null => exact absurd rfl hne
  | mk s l r num =>
      simp only [count_internal, h, Bool.false_eq_true, if_false]
      omega

/-- The heart of C2: a full, byte-sized tree numbered from `n` serializes
to a parseable postorder record list from which both reconstruction
variants rebuild the tree up to `number` attributes. -/
theorem serialize_core (t : HTree) :
    full t = true → bytesized t = true → ∀ n : Nat, n + count_internal t ≤ 256 →
    ∃ bs recs,
      tree_to_bytes (number_internal t n).1 = some bs ∧
      bytes_to_nodes bs = some recs ∧
      recs.length = count_internal t ∧
      (t.is_leaf = false →
        ∀ (L : List ReadNode),
          (∀ i, i < count_internal t → L.get? (n + i) = recs.get? i) →
        ∀ fuel, count_internal t ≤ fuel →
          generate_tree_general fuel L ((n + count_internal t - 1 : Nat) : Int)
            = some t.stripNum ∧
          ∀ idx : Int, idx = ((n + count_internal t - 1 : Nat) : Int) →
          generate_tree_postorder fuel L idx = some t.stripNum) := by
  induction t with
  | null => intro hf; simp [full] at hf
  | mk s l r num ihl ihr =>
      intro hf hb n hn
      rcases full_parts hf with ⟨hl0, hr0, -⟩ | ⟨hlne, hrne, hs, hfl, hfr⟩
      · -- a leaf: serializes to no bytes, no records
        have hleaf : (HTree.mk s l r num).is_leaf = true := by
          subst hl0; subst hr0; simp [HTree.is_leaf]
        refine ⟨[], [], ?_, by simp [bytes_to_nodes], ?_, ?_⟩
        · rw [number_internal_leaf hleaf]
          subst hl0; subst hr0
          simp [tree_to_bytes]
        · simp [count_internal, hleaf]
        · intro hcontra
          rw [hleaf] at hcontra
          cases hcontra
      · -- an internal node
        have hleaf : (HTree.mk s l r num).is_leaf = false := by
          rw [Bool.eq_false_iff]
          intro hc
          simp only [HTree.is_leaf, Bool.and_eq_true, beq_iff_eq] at hc
          exact absurd hc.1 hlne
        obtain ⟨hsb, hbl, hbr⟩ := bytesized_parts hb
        set cl := count_internal l with hcl
        set cr := count_internal r with hcr
        have hct : count_internal (HTree.mk s l r num) = 1 + cl + cr := by
          simp [count_internal, hleaf]
        rw [hct] at hn ⊢
        obtain ⟨bsl, rl, h1l, h2l, h3l, hrecl⟩ := ihl hfl hbl n (by omega)
        obtain ⟨bsr, rr, h1r, h2r, h3r, hrecr⟩ := ihr hfr hbr (n + cl) (by omega)
        set ln := (number_internal l n).1 with hln
        set rn := (number_internal r (n + cl)).1 with hrn
        have hlnne : ln ≠ .null := number_internal_ne_null hlne n
        have hrnne : rn ≠ .null := number_internal_ne_null hrne (n + cl)
        have hni : number_internal (HTree.mk s l r num) n =
            (HTree.mk s ln rn (some (n + cl + cr)), n + cl + cr + 1) := by
          simp only [number_internal, hleaf, Bool.false_eq_true, if_false]
          rw [← hln]
          rw [number_internal_snd l n, ← hcl, ← hrn, number_internal_snd r (n + cl), ← hcr]
        -- left child record: leaf symbol or internal number
        obtain ⟨lt, ld, hclrec, hlalt⟩ :
            ∃ lt ld : Nat, child_record ln = some [lt, ld] ∧
              ((lt = 0 ∧ HTree.leaf ld = l.stripNum) ∨
               (lt = 1 ∧ l.is_leaf = false ∧ ld = n + cl - 1)) := by
          by_cases hll : l.is_leaf = true
          · obtain ⟨v, lnum, hshape⟩ := full_leaf_shape hfl hll
            have hlnl : ln = l := by
              rw [hln, number_internal_leaf hll]
            have hv : v ≤ 255 := by
              subst hshape
              exact (bytesized_parts hbl).1 v rfl
            refine ⟨0, v, ?_, Or.inl ⟨rfl, ?_⟩⟩
            · rw [hlnl, hshape]
              simp [child_record, HTree.is_leaf, hv]
            · rw [hshape]
              rfl
          · have hll' : l.is_leaf = false := by simpa using hll
            have hroot := number_internal_root l hll' n
            exact ⟨1, n + cl - 1,
              child_record_internal hlnne hroot.2 hroot.1 (by omega),
              Or.inr ⟨rfl, hll', rfl⟩⟩
        -- right child record: leaf symbol or internal number
        obtain ⟨rt, rd, hcrrec, hralt⟩ :
            ∃ rt rd : Nat, child_record rn = some [rt, rd] ∧
              ((rt = 0 ∧ HTree.leaf rd = r.stripNum ∧ cr = 0) ∨
               (rt = 1 ∧ r.is_leaf = false ∧ rd = n + cl + cr - 1)) := by
          by_cases hrl : r.is_leaf = true
          · obtain ⟨v, rnum, hshape⟩ := full_leaf_shape hfr hrl
            have hrnl : rn = r := by
              rw [hrn, number_internal_leaf hrl]
            have hv : v ≤ 255 := by
              subst hshape
              exact (bytesized_parts hbr).1 v rfl
            refine ⟨0, v, ?_, Or.inl ⟨rfl, ?_, ?_⟩⟩
            · rw [hrnl, hshape]
              simp [child_record, HTree.is_leaf, hv]
            · rw [hshape]
              rfl
            · rw [hcr, hshape]
              simp [count_internal, HTree.is_leaf]
          · have hrl' : r.is_leaf = false := by simpa using hrl
            have hroot := number_internal_root r hrl' (n + cl)
            exact ⟨1, n + cl + cr - 1,
              child_record_internal hrnne hroot.2 hroot.1 (by omega),
              Or.inr ⟨rfl, hrl', rfl⟩⟩
        -- serialize the root
        have htb : tree_to_bytes (HTree.mk s ln rn (some (n + cl + cr))) =
            some (bsl ++ bsr ++ ([lt, ld] ++ [rt, rd])) := by
          simp only [tree_to_bytes, ne_eq, hlnne, hrnne, not_false_eq_true, if_true,
            h1l, h1r, hclrec, hcrrec, Option.bind_eq_bind, Option.some_bind]
          rfl
        set rootRec : ReadNode := ⟨lt, ld, rt, rd⟩ with hrootRec
        have hbtn : bytes_to_nodes (bsl ++ bsr ++ ([lt, ld] ++ [rt, rd])) =
            some (rl ++ (rr ++ [rootRec])) := by
          rw [List.append_assoc, bytes_to_nodes_append _ _ _ h2l,
            bytes_to_nodes_append _ _ _ h2r]
          rfl
        refine ⟨_, rl ++ (rr ++ [rootRec]), by rw [hni]; exact htb, hbtn, ?_, ?_⟩
        · simp [h3l, h3r]
          omega
        · rintro - L hpre fuel hfuel
          have hLroot : L.get? (n + (cl + cr)) = some rootRec := by
            rw [hpre (cl + cr) (by omega)]
            rw [List.get?_append_right (by omega)]
            rw [h3l]
            have h4 : cl + cr - cl = cr := by omega
            rw [h4]
            rw [List.get?_append_right (by omega)]
            rw [h3r]
            simp
          have hpre_l : ∀ i, i < cl → L.get? (n + i) = rl.get? i := by
            intro i hi
            rw [hpre i (by omega), List.get?_append (by omega)]
          have hpre_r : ∀ i, i < cr → L.get? (n + cl + i) = rr.get? i := by
            intro i hi
            have h5 := hpre (cl + i) (by omega)
            rw [List.get?_append_right (by omega)] at h5
            rw [h3l] at h5
            have h6 : cl + i - cl = i := by omega
            rw [h6] at h5
            rw [List.get?_append (by omega)] at h5
            rw [← h5]
            congr 1
            omega
          cases fuel with
          | zero => omega
          | succ fuel =>
              have hfl' : cl ≤ fuel := by omega
              have hfr' : cr ≤ fuel := by omega
              have hidx : n + (1 + cl + cr) - 1 = n + (cl + cr) := by omega
              have hstript : (HTree.mk s l r num).stripNum =
                  HTree.mk none l.stripNum r.stripNum none := by
                rw [hs]
                rfl
              constructor
              · -- general reconstruction
                rw [hidx, hstript]
                simp only [generate_tree_general, pyGet_ofNat, hLroot,
                  Option.bind_eq_bind, Option.some_bind, Option.pure_def]
                rcases hlalt with ⟨rfl, hleq⟩ | ⟨rfl, hlint, rfl⟩ <;>
                  rcases hralt with ⟨rfl, hreq, hcr0⟩ | ⟨rfl, hrint, rfl⟩
                · simp [hleq, hreq]
                · have hrrec := (hrecr hrint L hpre_r fuel hfr').1
                  simp [hleq, hrrec]
                · have hlrec := (hrecl hlint L hpre_l fuel hfl').1
                  simp [hreq, hlrec]
                · have hlrec := (hrecl hlint L hpre_l fuel hfl').1
                  have hrrec := (hrecr hrint L hpre_r fuel hfr').1
                  simp [hlrec, hrrec]
              · -- postorder reconstruction
                intro idx hidx2
                rw [hidx] at hidx2
                subst hidx2
                rw [hstript]
                simp only [generate_tree_postorder, pyGet_ofNat, hLroot,
                  Option.bind_eq_bind, Option.some_bind, Option.pure_def]
                rcases hlalt with ⟨rfl, hleq⟩ | ⟨rfl, hlint, rfl⟩ <;>
                  rcases hralt with ⟨rfl, hreq, hcr0⟩ | ⟨rfl, hrint, rfl⟩
                · simp [hleq, hreq]
                · have hcrpos : 1 ≤ cr := by
                    have hp := count_internal_pos hrne hrint
                    rw [← hcr] at hp
                    exact hp
                  have hrrec := (hrecr hrint L hpre_r fuel hfr').2
                    (((n + (cl + cr) : Nat) : Int) - 1)
                    (by push_cast; omega)
                  push_cast at hrrec
                  simp [hleq, hrrec]
                · have hclpos : 1 ≤ cl := by
                    have hp := count_internal_pos hlne hlint
                    rw [← hcl] at hp
                    exact hp
                  have hlrec := (hrecl hlint L hpre_l fuel hfl').2
                    (((n + (cl + cr) : Nat) : Int) -
                      (count_internal r.stripNum : Int) - 1)
                    (by
                      rw [stripNum_count, ← hcr]
                      push_cast
                      omega)
                  push_cast at hlrec
                  simp [hreq, hlrec]
                · have hclpos : 1 ≤ cl := by
                    have hp := count_internal_pos hlne hlint
                    rw [← hcl] at hp
                    exact hp
                  have hrrec := (hrecr hrint L hpre_r fuel hfr').2
                    (((n + (cl + cr) : Nat) : Int) - 1)
                    (by
                      have hcrpos : 1 ≤ cr := by
                        have hp := count_internal_pos hrne hrint
                        rw [← hcr] at hp
                        exact hp
                      push_cast
                      omega)
                  have hlrec := (hrecl hlint L hpre_l fuel hfl').2
                    (((n + (cl + cr) : Nat) : Int) -
                      (count_internal r.stripNum : Int) - 1)
                    (by
                      rw [stripNum_count, ← hcr]
                      push_cast
                      omega)
                  push_cast at hrrec hlrec
                  simp [hrrec, hlrec]

/-- C2 counterexample: the single-symbol Huffman tree (internal root with
one leaf child), which `huffman_tree {42: 1}` itself produces, serializes
to a 2-byte record, and `bytes_to_nodes` fails on it (`buf[i+2]` raises
`IndexError`) — so deserializing its serialization cannot yield the tree. -/
theorem claim_C2_counterexample :
    huffman_tree [(42, 1)] = some (HTree.mk none (.leaf 42) .null none) ∧
    tree_to_bytes (number_nodes (HTree.mk none (.leaf 42) .null none)) = some [0, 42] ∧
    bytes_to_nodes [0, 42] = none := by decide

/-- C2 amended: for every tree whose internal nodes all have two children
(with byte-sized symbols, at most 256 internal nodes, and an internal
root), reconstructing from the byte serialization — `bytes_to_nodes` then
either variant, rooted at the last record — yields a tree structurally
equal (Python `==` ignores `number`) to the original, and in particular
the two variants yield identical trees. -/
theorem claim_C2 (t : HTree) (hf : full t = true) (hb : bytesized t = true)
    (hleaf : t.is_leaf = false) (hcount : count_internal t ≤ 256)
    (fuel : Nat) (hfuel : count_internal t ≤ fuel) :
    ∃ bs recs,
      tree_to_bytes (number_nodes t) = some bs ∧
      bytes_to_nodes bs = some recs ∧
      recs.length = count_internal t ∧
      generate_tree_general fuel recs ((recs.length : Int) - 1) = some t.stripNum ∧
      generate_tree_postorder fuel recs ((recs.length : Int) - 1) = some t.stripNum := by
  have htne : t ≠ .null := by
    intro h
    rw [h] at hleaf
    simp [HTree.is_leaf] at hleaf
  have hcpos : 1 ≤ count_internal t := count_internal_pos htne hleaf
  obtain ⟨bs, recs, h1, h2, h3, h4⟩ := serialize_core t hf hb 0 (by omega)
  have hclause := h4 hleaf recs (fun i hi => by simp) fuel hfuel
  have hidxeq : ((recs.length : Int) - 1) = ((0 + count_internal t - 1 : Nat) : Int) := by
    rw [h3]
    omega
  refine ⟨bs, recs, h1, h2, h3, ?_, ?_⟩
  · rw [hidxeq]
    exact hclause.1
  · exact hclause.2 _ hidxeq

/-- Witness for C2 at the doctest tree `((3, 2), 5)` with fuel 2. -/
theorem claim_C2_witness :
    ∃ bs recs,
      tree_to_bytes (number_nodes
        (HTree.node (HTree.node (.leaf 3) (.leaf 2)) (.leaf 5))) = some bs ∧
      bytes_to_nodes bs = some recs ∧
      recs.length = count_internal
        (HTree.node (HTree.node (.leaf 3) (.leaf 2)) (.leaf 5)) ∧
      generate_tree_general 2 recs ((recs.length : Int) - 1) =
        some (HTree.node (HTree.node (.leaf 3) (.leaf 2)) (.leaf 5)).stripNum ∧
      generate_tree_postorder 2 recs ((recs.length : Int) - 1) =
        some (HTree.node (HTree.node (.leaf 3) (.leaf 2)) (.leaf 5)).stripNum :=
  claim_C2 (HTree.node (HTree.node (.leaf 3) (.leaf 2)) (.leaf 5))
    (by decide) (by decide) (by decide) (by decide) 2 (by decide)

/-! ## C9: `improve_tree` never worsens the average code length -/

/-- One level of the level-order traversal of `improve_tree`: at depth
`d = 0` a leaf takes the last entry of `freq_lst` (Python `list.pop()`),
failing (`IndexError`, modelled `none`) when the list is empty; deeper
nodes forward the supply left-to-right through their children.  The
source mutates leaves in place while popping nodes off a FIFO queue
("Level-order visit code from class notes"); a queue visit reaches the
depth-`d` nodes left to right after all shallower nodes, which is exactly
this level-by-level pass. -/
def relabel_level : HTree → Nat → List (Nat × Nat) → Option (HTree × List (Nat × Nat))
  | .null, _, supply => some (.null, supply)
  | .mk s l r num, 0, supply =>
      if (HTree.mk s l r num).is_leaf then
        match supply.getLast? with
        | none => none
        | some p => some (.mk (some p.2) l r num, supply.dropLast)
      else some (.mk s l r num, supply)
  | .mk s l r num, d + 1, supply => do
      let pl ← relabel_level l d supply
      let pr ← relabel_level r d pl.2
      pure (HTree.mk s pl.1 pr.1 num, pr.2)

/-- Height of a tree (`null` has height 0). -/
def tree_height : HTree → Nat
  | .null => 0
  | .mk _ l r _ => 1 + max (tree_height l) (tree_height r)

/-- Run `relabel_level` for the levels `0, 1, …, d`. -/
def relabel_levels : HTree → Nat → List (Nat × Nat) → Option (HTree × List (Nat × Nat))
  | t, 0, supply => relabel_level t 0 supply
  | t, d + 1, supply => do
      let p ← relabel_levels t d supply
      relabel_level p.1 (d + 1) p.2

/-- `improve_tree(tree, freq_dict)`: sort the `(frequency, symbol)` pairs
ascending, then, visiting the tree in level order, give each leaf the
symbol popped from the end of the sorted list (highest remaining
frequency).  The Python version mutates `tree`; this returns the
relabeled tree, `none` when a `pop` hits an empty list. -/
def improve_tree (tree : HTree) (freq_dict : List (Nat × Nat)) : Option HTree :=
  let freq_lst := List.insertionSort tupLe (freq_dict.map (fun p => (p.2, p.1)))
  (relabel_levels tree (tree_height tree) freq_lst).map Prod.fst

/-- The weight of a leaf symbol under a frequency dictionary. -/
def wOf (freq : List (Nat × Nat)) : Option Nat → Nat
  | some v => (dictGet freq v).getD 0
  | none => 0

/-- Total frequency of the leaves of a tree. -/
def leafWeightSum (freq : List (Nat × Nat)) : HTree → Nat
  | .null => 0
  | .mk s l r num =>
      if (HTree.mk s l r num).is_leaf then wOf freq s
      else leafWeightSum freq l + leafWeightSum freq r

/-- Frequency-weighted depth sum of the leaves (the numerator of
`avg_length`). -/
def wds (freq : List (Nat × Nat)) : HTree → Nat
  | .null => 0
  | .mk s l r num =>
      if (HTree.mk s l r num).is_leaf then 0
      else wds freq l + wds freq r + leafWeightSum freq l + leafWeightSum freq r

/-- Leaf symbols at depth exactly `d`, left to right. -/
def leavesAt : HTree → Nat → List (Option Nat)
  | .null, _ => []
  | .mk s l r num, 0 => if (HTree.mk s l r num).is_leaf then [s] else []
  | .mk _ l r _, d + 1 => leavesAt l d ++ leavesAt r d

/-- Sorted-versus-permuted rearrangement bound: with depths `d`
nondecreasing and weights `f` nonincreasing, pairing `d` with `f`
minimizes the inner product over all permutations `g` of `f`. -/
theorem zip_rearrangement :
    ∀ (d f g : List Nat), d.Sorted (· ≤ ·) → f.Sorted (fun a b => b ≤ a) →
      g.Perm f → d.length = f.length →
      (List.zipWith (· * ·) d f).sum ≤ (List.zipWith (· * ·) d g).sum := by
  intro d f
  induction f generalizing d with
  | nil =>
      intro g hd hf hg hlen
      have : g = [] := hg.eq_nil
      simp [this]
  | cons f1 frest ih =>
      intro g hd hf hg hlen
      match g, d with
      | [], d =>
          have := hg.length_eq
          simp at this
      | g1 :: grest, [] => simp at hlen
      | g1 :: grest, d0 :: drest =>
          by_cases hfg : g1 = f1
          · subst hfg
            have hperm : grest.Perm frest := (hg.cons_inv)
            have hrec := ih drest grest hd.of_cons hf.of_cons hperm
              (by simp at hlen; omega)
            simp only [List.zipWith_cons_cons, List.sum_cons]
            omega
          · have hmem : f1 ∈ grest := by
              have hin : f1 ∈ g1 :: grest := hg.symm.subset (by simp)
              rcases List.mem_cons.mp hin with h | h
              · exact absurd h.symm hfg
              · exact h
            obtain ⟨u, v, huv⟩ := List.append_of_mem hmem
            subst huv
            have hfrlen : frest.length = u.length + 1 + v.length := by
              have := hg.length_eq
              simp at this
              omega
            have hdrlen : drest.length = frest.length := by
              simpa using hlen
            have hdu : u.length ≤ drest.length := by omega
            obtain ⟨du, dv', hdsplit, hdulen⟩ :
                ∃ du dv', drest = du ++ dv' ∧ du.length = u.length :=
              ⟨drest.take u.length, drest.drop u.length, (List.take_append_drop _ _).symm,
                List.length_take_of_le hdu⟩
            match dv', hdsplit with
            | [], hdsplit =>
                exfalso
                have := congrArg List.length hdsplit
                simp [hdulen] at this
                omega
            | dj :: dv, hdsplit =>
                have hd0j : d0 ≤ dj := by
                  have : dj ∈ drest := by
                    rw [hdsplit]
                    simp
                  exact (List.sorted_cons.mp hd).1 dj this
                have hg1f1 : g1 ≤ f1 := by
                  have hgin : g1 ∈ f1 :: frest := hg.subset (by simp)
                  rcases List.mem_cons.mp hgin with h | h
                  · exact le_of_eq h
                  · exact (List.sorted_cons.mp hf).1 g1 h
                have hswap : (List.zipWith (· * ·) (d0 :: drest) (f1 :: (u ++ g1 :: v))).sum
                    ≤ (List.zipWith (· * ·) (d0 :: drest) (g1 :: (u ++ f1 :: v))).sum := by
                  rw [hdsplit]
                  simp only [List.zipWith_cons_cons, List.sum_cons]
                  rw [List.zipWith_append _ du (dj :: dv) u (g1 :: v) hdulen,
                    List.zipWith_append _ du (dj :: dv) u (f1 :: v) hdulen]
                  simp only [List.zipWith_cons_cons, List.sum_append, List.sum_cons]
                  have key := mul_add_mul_le_mul_add_mul hd0j hg1f1
                  -- d0 * f1 + dj * g1 ≤ d0 * g1 + dj * f1
                  omega
                have hperm2 : (u ++ g1 :: v).Perm frest := by
                  have h2 : (g1 :: (u ++ f1 :: v)).Perm (f1 :: (g1 :: (u ++ v))) :=
                    (List.Perm.cons _ List.perm_middle).trans (List.Perm.swap f1 g1 _)
                  have h3 : (f1 :: (g1 :: (u ++ v))).Perm (f1 :: frest) :=
                    h2.symm.trans hg
                  have h4 : (g1 :: (u ++ v)).Perm frest := h3.cons_inv
                  exact List.perm_middle.trans h4
                have hrec := ih drest (u ++ g1 :: v) hd.of_cons hf.of_cons hperm2
                  (by omega)
                have hstep : (List.zipWith (· * ·) (d0 :: drest) (f1 :: frest)).sum ≤
                    (List.zipWith (· * ·) (d0 :: drest) (f1 :: (u ++ g1 :: v))).sum := by
                  simp only [List.zipWith_cons_cons, List.sum_cons]
                  omega
                exact hstep.trans hswap

theorem sum_map_add {α : Type} (f g : α → Nat) :
    ∀ l : List α, (l.map (fun x => f x + g x)).sum = (l.map f).sum + (l.map g).sum := by
  intro l
  induction l with
  | nil => rfl
  | cons a l ih =>
      simp only [List.map_cons, List.sum_cons, ih]
      omega

/-- Total leaf weight as a sum over `get_leaf`. -/
theorem sum_wOf_get_leaf (freq : List (Nat × Nat)) (t : HTree) :
    ((get_leaf t).map (wOf freq)).sum = leafWeightSum freq t := by
  induction t with
  | null => rfl
  | mk s l r num ihl ihr =>
      by_cases h : (HTree.mk s l r num).is_leaf
      · simp [get_leaf, leafWeightSum, h]
      · have h' : (HTree.mk s l r num).is_leaf = false := by simpa using h
        rw [get_leaf_internal h']
        simp only [leafWeightSum, h', Bool.false_eq_true, if_false, List.map_append,
          List.sum_append, ihl, ihr]
        omega

/-- The path-length sum over the leaves equals the weighted depth sum. -/
theorem sum_pathlen_get_leaf (freq : List (Nat × Nat)) (t : HTree)
    (hwf : wf t = true) (hnd : (get_leaf t).Nodup) :
    ((get_leaf t).map (fun s => (get_path t s).length * wOf freq s)).sum
      = wds freq t := by
  induction t with
  | null => rfl
  | mk s l r num ihl ihr =>
      obtain ⟨head, hwl, hwr⟩ := wf_parts hwf
      by_cases h : (HTree.mk s l r num).is_leaf
      · obtain ⟨hl0, hr0⟩ := is_leaf_iff.mp h
        subst hl0; subst hr0
        simp [get_leaf, wds, get_path, HTree.is_leaf]
      · have h' : (HTree.mk s l r num).is_leaf = false := by simpa using h
        rw [h'] at head
        simp only [Bool.false_eq_true, if_false, beq_iff_eq] at head
        subst head
        rw [get_leaf_internal h'] at hnd ⊢
        have hndl : (get_leaf l).Nodup := hnd.of_append_right
        have hndr : (get_leaf r).Nodup := hnd.of_append_left
        have hdisj : ∀ x ∈ get_leaf r, x ∉ get_leaf l := by
          intro x hx
          exact (List.disjoint_of_nodup_append hnd) hx
        simp only [List.map_append, List.sum_append]
        have hmapr : (get_leaf r).map
            (fun s => (get_path (HTree.mk none l r num) s).length * wOf freq s) =
            (get_leaf r).map (fun s => wOf freq s + (get_path r s).length * wOf freq s) := by
          apply List.map_congr_left
          intro x hx
          obtain ⟨v, rfl⟩ := Option.isSome_iff_exists.mp
            (get_leaf_isSome r hwr x hx)
          have hnc : contains l (some v) = false := by
            cases hc : contains l (some v)
            · rfl
            · exact absurd ((contains_iff_mem l hwl v).mp hc) (hdisj _ hx)
          simp only [get_path, beq_iff_eq, reduceCtorEq, if_false, hnc,
            Bool.false_eq_true, List.length_cons]
          ring
        have hmapl : (get_leaf l).map
            (fun s => (get_path (HTree.mk none l r num) s).length * wOf freq s) =
            (get_leaf l).map (fun s => wOf freq s + (get_path l s).length * wOf freq s) := by
          apply List.map_congr_left
          intro x hx
          obtain ⟨v, rfl⟩ := Option.isSome_iff_exists.mp
            (get_leaf_isSome l hwl x hx)
          have hc : contains l (some v) = true := (contains_iff_mem l hwl v).mpr hx
          simp only [get_path, beq_iff_eq, reduceCtorEq, if_false, hc, if_true,
            List.length_cons]
          ring
        rw [hmapr, hmapl, sum_map_add, sum_map_add, ihl hwl hndl, ihr hwr hndr,
          sum_wOf_get_leaf, sum_wOf_get_leaf]
        simp only [wds, h', Bool.false_eq_true, if_false]
        omega

theorem dictPut_not_mem {dic : List (Option Nat × List Char)}
    {k : Option Nat} {v : List Char} (h : ∀ p ∈ dic, p.1 ≠ k) :
    dictPut dic k v = dic ++ [(k, v)] := by
  induction dic with
  | nil => rfl
  | cons q rest ih =>
      obtain ⟨qk, qv⟩ := q
      have hq : qk ≠ k := h (qk, qv) (by simp)
      simp only [dictPut, if_neg hq, List.cons_append]
      rw [ih (fun p hp => h p (List.mem_cons_of_mem _ hp))]

/-- With distinct leaf symbols, the code dict is just the association
list of `get_path` values in `get_leaf` order. -/
theorem get_codes_nodup (t : HTree) (hnd : (get_leaf t).Nodup) :
    get_codes t = (get_leaf t).map (fun a => (a, get_path t a)) := by
  unfold get_codes
  suffices h : ∀ (keys : List (Option Nat)) (dic : List (Option Nat × List Char)),
      keys.Nodup → (∀ k ∈ keys, ∀ p ∈ dic, p.1 ≠ k) →
      keys.foldl (fun dic a => dictPut dic a (get_path t a)) dic =
        dic ++ keys.map (fun a => (a, get_path t a)) by
    simpa using h (get_leaf t) [] hnd (by simp)
  intro keys
  induction keys with
  | nil => intro dic _ _; simp
  | cons a keys ih =>
      intro dic hnd2 hfresh
      simp only [List.foldl_cons]
      rw [dictPut_not_mem (hfresh a (by simp))]
      rw [ih _ (List.nodup_cons.mp hnd2).2 ?_]
      · simp
      · intro k hk p hp
        rcases List.mem_append.mp hp with hp | hp
        · exact hfresh k (List.mem_cons_of_mem _ hk) p hp
        · simp at hp
          subst hp
          intro hc
          simp at hc
          rw [← hc] at hk
          exact (List.nodup_cons.mp hnd2).1 hk

theorem mapM_codes_eq (freq : List (Nat × Nat)) (g : Option Nat → List Char) :
    ∀ (keys : List (Option Nat)),
      (∀ s ∈ keys, ∃ v f, s = some v ∧ dictGet freq v = some f) →
      (keys.map (fun a => (a, g a))).mapM
        (fun kv => match kv.1 with
          | some key => (dictGet freq key).map (fun f => (kv.2.length * f, f))
          | none => none) =
      some (keys.map (fun a => ((g a).length * wOf freq a, wOf freq a))) := by
  intro keys
  induction keys with
  | nil => intro _; rfl
  | cons s rest ih =>
      intro hkeys
      obtain ⟨v, f, hs, hv⟩ := hkeys s (by simp)
      subst hs
      rw [List.map_cons, List.mapM_cons, List.map_cons]
      simp only [hv, Option.map_some']
      rw [ih (fun x hx => hkeys x (by simp [hx]))]
      simp only [Option.bind_eq_bind, Option.some_bind, Option.pure_def,
        Option.some.injEq, List.cons.injEq]
      simp [wOf, hv]

/-- `avg_length` in closed form: weighted depth sum over total weight,
provided the tree is well formed with distinct leaf symbols all present
in the frequency dictionary. -/
theorem avg_length_eq (t : HTree) (freq : List (Nat × Nat))
    (hwf : wf t = true) (hnd : (get_leaf t).Nodup)
    (hkeys : ∀ s ∈ get_leaf t, ∃ v f, s = some v ∧ dictGet freq v = some f) :
    avg_length t freq =
      if leafWeightSum freq t = 0 then none
      else some ((wds freq t : Rat) / (leafWeightSum freq t : Rat)) := by
  unfold avg_length
  dsimp only
  rw [get_codes_nodup t hnd]
  rw [mapM_codes_eq freq (get_path t) (get_leaf t) hkeys]
  simp only [List.map_map]
  have h1 : ((get_leaf t).map
      (Prod.fst ∘ fun a => ((get_path t a).length * wOf freq a, wOf freq a))).sum
      = wds freq t := by
    rw [show (Prod.fst ∘ fun a => ((get_path t a).length * wOf freq a, wOf freq a))
        = fun a => (get_path t a).length * wOf freq a from rfl]
    exact sum_pathlen_get_leaf freq t hwf hnd
  have h2 : ((get_leaf t).map
      (Prod.snd ∘ fun a => ((get_path t a).length * wOf freq a, wOf freq a))).sum
      = leafWeightSum freq t := by
    rw [show (Prod.snd ∘ fun a => ((get_path t a).length * wOf freq a, wOf freq a))
        = fun a => wOf freq a from rfl]
    exact sum_wOf_get_leaf freq t
  rw [h1, h2]

theorem relabel_level_null_iff :
    ∀ (t : HTree) (d : Nat) (supply : List (Nat × Nat)) (t' : HTree)
      (supply' : List (Nat × Nat)),
      relabel_level t d supply = some (t', supply') → (t = .null ↔ t' = .null) := by
  intro t d supply t' supply' h
  cases t with
  | null =>
      simp only [relabel_level, Option.some.injEq, Prod.mk.injEq] at h
      simp [← h.1]
  | mk s l r num =>
      cases d with
      | zero =>
          simp only [relabel_level] at h
          split at h
          · cases hg : (supply.getLast?) with
            | none => rw [hg] at h; cases h
            | some p =>
                rw [hg] at h
                simp only [Option.some.injEq, Prod.mk.injEq] at h
                simp [← h.1]
          · simp only [Option.some.injEq, Prod.mk.injEq] at h
            simp [← h.1]
      | succ d =>
          simp only [relabel_level, Option.bind_eq_bind] at h
          cases h1 : relabel_level l d supply with
          | none => rw [h1] at h; cases h
          | some pl =>
              rw [h1] at h
              simp only [Option.some_bind] at h
              cases h2 : relabel_level r d pl.2 with
              | none => rw [h2] at h; cases h
              | some pr =>
                  rw [h2] at h
                  simp only [Option.some_bind, Option.pure_def, Option.some.injEq,
                    Prod.mk.injEq] at h
                  simp [← h.1]

/-- Everything one `relabel_level` pass guarantees: it consumes the last
`k` supply entries (`k` the number of depth-`d` leaves), writes their
symbols onto the depth-`d` leaves left-to-right from the end of the
supply, and changes nothing else. -/
theorem relabel_level_spec :
    ∀ (t : HTree) (d : Nat) (supply : List (Nat × Nat)) (t' : HTree)
      (supply' : List (Nat × Nat)),
      relabel_level t d supply = some (t', supply') →
      (leavesAt t d).length ≤ supply.length ∧
      supply'.reverse = supply.reverse.drop (leavesAt t d).length ∧
      leavesAt t' d =
        (supply.reverse.take (leavesAt t d).length).map (fun p => some p.2) ∧
      (∀ e, e ≠ d → leavesAt t' e = leavesAt t e) ∧
      (wf t = true → wf t' = true) ∧
      tree_height t' = tree_height t := by
  intro t
  induction t with
  | null =>
      intro d supply t' supply' h
      simp only [relabel_level, Option.some.injEq, Prod.mk.injEq] at h
      obtain ⟨h1, h2⟩ := h
      subst h1; subst h2
      simp [leavesAt]
  | mk s l r num ihl ihr =>
      intro d supply t' supply' h
      cases d with
      | zero =>
          simp only [relabel_level] at h
          by_cases hleaf : (HTree.mk s l r num).is_leaf
          · rw [if_pos hleaf] at h
            cases hg : (supply.getLast?) with
            | none => rw [hg] at h; cases h
            | some p =>
                rw [hg] at h
                simp only [Option.some.injEq, Prod.mk.injEq] at h
                obtain ⟨h1, h2⟩ := h
                subst h1; subst h2
                have hsne : supply ≠ [] := by
                  intro hc
                  rw [hc] at hg
                  simp at hg
                have hsplit : supply.reverse = p :: supply.dropLast.reverse := by
                  conv_lhs => rw [← List.dropLast_concat_getLast hsne]
                  rw [List.reverse_append]
                  simp [List.getLast?_eq_getLast supply hsne] at hg
                  rw [hg]
                  simp
                obtain ⟨hl0, hr0⟩ := is_leaf_iff.mp hleaf
                subst hl0; subst hr0
                refine ⟨?_, ?_, ?_, ?_, ?_, ?_⟩
                · have hpos : 0 < supply.length := List.length_pos.mpr hsne
                  simp only [leavesAt, HTree.is_leaf, beq_self_eq_true, Bool.and_self,
                    if_true, List.length_cons, List.length_nil]
                  omega
                · simp only [leavesAt, HTree.is_leaf]
                  simp only [beq_self_eq_true, Bool.and_self, if_true, List.length_cons,
                    List.length_nil]
                  rw [hsplit]
                  simp
                · simp [leavesAt, HTree.is_leaf, hsplit]
                · intro e he
                  cases e with
                  | zero => exact absurd rfl he
                  | succ e => simp [leavesAt]
                · intro hw
                  simp [wf, HTree.is_leaf]
                · simp [tree_height]
          · rw [if_neg hleaf] at h
            simp only [Option.some.injEq, Prod.mk.injEq] at h
            obtain ⟨h1, h2⟩ := h
            subst h1; subst h2
            have hleaf' : (HTree.mk s l r num).is_leaf = false := by simpa using hleaf
            simp [leavesAt, hleaf']
      | succ d =>
          simp only [relabel_level, Option.bind_eq_bind] at h
          cases h1 : relabel_level l d supply with
          | none => rw [h1] at h; cases h
          | some pl =>
              rw [h1] at h
              simp only [Option.some_bind] at h
              cases h2 : relabel_level r d pl.2 with
              | none => rw [h2] at h; cases h
              | some pr =>
                  rw [h2] at h
                  simp only [Option.some_bind, Option.pure_def, Option.some.injEq,
                    Prod.mk.injEq] at h
                  obtain ⟨h3, h4⟩ := h
                  subst h3; subst h4
                  obtain ⟨al, bl, cl', dl, el, fl⟩ := ihl d supply pl.1 pl.2 (by
                    rw [h1])
                  obtain ⟨ar, br, cr', dr, er, fr⟩ := ihr d pl.2 pr.1 pr.2 (by
                    rw [h2])
                  have hlen1 : pl.2.length = supply.length - (leavesAt l d).length := by
                    have := congrArg List.length bl
                    simpa using this
                  have hlnull : l = .null ↔ pl.1 = .null :=
                    relabel_level_null_iff l d supply pl.1 pl.2 (by rw [h1])
                  have hrnull : r = .null ↔ pr.1 = .null :=
                    relabel_level_null_iff r d pl.2 pr.1 pr.2 (by rw [h2])
                  have hleaf_eq : (HTree.mk s pl.1 pr.1 num).is_leaf =
                      (HTree.mk s l r num).is_leaf := by
                    simp only [HTree.is_leaf]
                    have e1 : (pl.1 == HTree.null) = (l == HTree.null) := by
                      by_cases hc : l = .null
                      · simp [hc, hlnull.mp hc]
                      · have hc2 : ¬ pl.1 = .null := fun hx => hc (hlnull.mpr hx)
                        simp [hc, hc2]
                    have e2 : (pr.1 == HTree.null) = (r == HTree.null) := by
                      by_cases hc : r = .null
                      · simp [hc, hrnull.mp hc]
                      · have hc2 : ¬ pr.1 = .null := fun hx => hc (hrnull.mpr hx)
                        simp [hc, hc2]
                    rw [e1, e2]
                  refine ⟨?_, ?_, ?_, ?_, ?_, ?_⟩
                  · simp only [leavesAt, List.length_append]
                    omega
                  · rw [br, bl, List.drop_drop]
                    simp only [leavesAt, List.length_append]
                  · simp only [leavesAt, cl', cr', bl, List.length_append]
                    rw [← List.map_append, ← List.take_add]
                  · intro e he
                    cases e with
                    | zero =>
                        simp only [leavesAt, hleaf_eq]
                    | succ e =>
                        have hed : e ≠ d := by omega
                        simp only [leavesAt, dl e hed, dr e hed]
                  · intro hw
                    obtain ⟨hhead, hwl, hwr⟩ := wf_parts hw
                    have : wf (HTree.mk s pl.1 pr.1 num) =
                        ((if (HTree.mk s pl.1 pr.1 num).is_leaf then s.isSome
                          else s == none) && wf pl.1 && wf pr.1) := by
                      simp [wf]
                    rw [this, hleaf_eq]
                    simp only [Bool.and_eq_true]
                    exact ⟨⟨hhead, el hwl⟩, er hwr⟩
                  · simp only [tree_height, fl, fr]

/-- Levels at or beyond the height hold no leaves. -/
theorem leavesAt_of_height_le :
    ∀ (t : HTree) (e : Nat), tree_height t ≤ e → leavesAt t e = [] := by
  intro t
  induction t with
  | null => intro e _; simp [leavesAt]
  | mk s l r num ihl ihr =>
      intro e he
      simp only [tree_height] at he
      cases e with
      | zero => omega
      | succ e =>
          simp only [leavesAt]
          rw [ihl e (by omega), ihr e (by omega)]
          simp

theorem tree_height_eq_zero {t : HTree} : tree_height t = 0 ↔ t = .null := by
  cases t <;> simp [tree_height]

/-- Number of leaves strictly above depth `e` (prefix sums of the
per-level leaf counts). -/
def preCnt (t : HTree) (e : Nat) : Nat :=
  ((List.range e).map (fun j => (leavesAt t j).length)).sum

theorem preCnt_zero (t : HTree) : preCnt t 0 = 0 := rfl

theorem preCnt_succ (t : HTree) (e : Nat) :
    preCnt t (e + 1) = preCnt t e + (leavesAt t e).length := by
  simp [preCnt, List.range_succ]

theorem preCnt_mono (t : HTree) : ∀ {e e' : Nat}, e ≤ e' → preCnt t e ≤ preCnt t e' := by
  intro e e' h
  induction e' with
  | zero =>
      have : e = 0 := by omega
      subst this
      exact Nat.le_refl _
  | succ n ih =>
      by_cases he : e ≤ n
      · have := ih he
        rw [preCnt_succ]
        omega
      · have : e = n + 1 := by omega
        subst this
        exact Nat.le_refl _

/-- One relabel pass succeeds whenever the supply covers the level. -/
theorem relabel_level_total :
    ∀ (t : HTree) (d : Nat) (supply : List (Nat × Nat)),
      (leavesAt t d).length ≤ supply.length →
      (relabel_level t d supply).isSome = true := by
  intro t
  induction t with
  | null => intro d supply _; simp [relabel_level]
  | mk s l r num ihl ihr =>
      intro d supply h
      cases d with
      | zero =>
          by_cases hleaf : (HTree.mk s l r num).is_leaf
          · have hne : supply ≠ [] := by
              intro hc
              rw [hc] at h
              simp [leavesAt, hleaf] at h
            have hg : supply.getLast?.isSome = true := by
              rw [List.getLast?_isSome]
              exact hne
            obtain ⟨p, hp⟩ := Option.isSome_iff_exists.mp hg
            simp [relabel_level, hleaf, hp]
          · simp [relabel_level, hleaf]
      | succ d =>
          simp only [leavesAt, List.length_append] at h
          have h1 := ihl d supply (by omega)
          obtain ⟨pl, hpl⟩ := Option.isSome_iff_exists.mp h1
          have spl := relabel_level_spec l d supply pl.1 pl.2 (by rw [hpl])
          have hlen : pl.2.length = supply.length - (leavesAt l d).length := by
            have := congrArg List.length spl.2.1
            simpa using this
          have h2 := ihr d pl.2 (by omega)
          obtain ⟨pr, hpr⟩ := Option.isSome_iff_exists.mp h2
          simp only [relabel_level, Option.bind_eq_bind]
          rw [hpl]
          simp only [Option.some_bind]
          rw [hpr]
          simp

/-- Cumulative effect of the passes for levels `0 … D`: level `e` receives
the supply entries at reversed positions `preCnt e … preCnt (e+1) - 1`,
deeper levels are untouched, well-formedness and height are preserved. -/
theorem relabel_levels_spec :
    ∀ (D : Nat) (t : HTree) (supply : List (Nat × Nat)) (t' : HTree)
      (supply' : List (Nat × Nat)),
      relabel_levels t D supply = some (t', supply') →
      preCnt t (D + 1) ≤ supply.length ∧
      supply'.reverse = supply.reverse.drop (preCnt t (D + 1)) ∧
      (∀ e, e ≤ D → leavesAt t' e =
        ((supply.reverse.drop (preCnt t e)).take (leavesAt t e).length).map
          (fun p => some p.2)) ∧
      (∀ e, D < e → leavesAt t' e = leavesAt t e) ∧
      (wf t = true → wf t' = true) ∧
      tree_height t' = tree_height t := by
  intro D
  induction D with
  | zero =>
      intro t supply t' supply' h
      have hs := relabel_level_spec t 0 supply t' supply' h
      obtain ⟨sa, sb, sc, sd, se, sf⟩ := hs
      refine ⟨?_, ?_, ?_, ?_, se, sf⟩
      · rw [preCnt_succ, preCnt_zero]
        omega
      · rw [preCnt_succ, preCnt_zero, Nat.zero_add]
        exact sb
      · intro e he
        have : e = 0 := by omega
        subst this
        rw [preCnt_zero, List.drop_zero]
        exact sc
      · intro e he
        exact sd e (by omega)
  | succ D ih =>
      intro t supply t' supply' h
      simp only [relabel_levels, Option.bind_eq_bind] at h
      cases hp : relabel_levels t D supply with
      | none => rw [hp] at h; cases h
      | some p =>
          rw [hp] at h
          simp only [Option.some_bind] at h
          obtain ⟨ia, ib, ic, id2, ie, if2⟩ := ih t supply p.1 p.2 (by rw [hp])
          obtain ⟨sa, sb, sc, sd, se, sf⟩ :=
            relabel_level_spec p.1 (D + 1) p.2 t' supply' h
          have hsame : leavesAt p.1 (D + 1) = leavesAt t (D + 1) :=
            id2 (D + 1) (by omega)
          have hplen : p.2.length = supply.length - preCnt t (D + 1) := by
            have := congrArg List.length ib
            simpa using this
          rw [hsame] at sa sb sc
          refine ⟨?_, ?_, ?_, ?_, fun hw => se (ie hw), sf.trans if2⟩
          · rw [preCnt_succ]
            omega
          · rw [sb, ib, List.drop_drop, preCnt_succ t (D + 1)]
          · intro e he
            by_cases heD : e ≤ D
            · rw [sd e (by omega)]
              exact ic e heD
            · have : e = D + 1 := by omega
              subst this
              rw [sc, ib]
          · intro e he
            rw [sd e (by omega)]
            exact id2 e (by omega)

/-- All passes succeed when the supply covers levels `0 … D`. -/
theorem relabel_levels_total :
    ∀ (D : Nat) (t : HTree) (supply : List (Nat × Nat)),
      preCnt t (D + 1) ≤ supply.length →
      (relabel_levels t D supply).isSome = true := by
  intro D
  induction D with
  | zero =>
      intro t supply h
      rw [preCnt_succ, preCnt_zero] at h
      exact relabel_level_total t 0 supply (by omega)
  | succ D ih =>
      intro t supply h
      have hmono : preCnt t (D + 1) ≤ preCnt t (D + 1 + 1) := preCnt_mono t (by omega)
      have h1 := ih t supply (by omega)
      obtain ⟨p, hp⟩ := Option.isSome_iff_exists.mp h1
      obtain ⟨ia, ib, ic, id2, ie, if2⟩ := relabel_levels_spec D t supply p.1 p.2 (by rw [hp])
      have hplen : p.2.length = supply.length - preCnt t (D + 1) := by
        have := congrArg List.length ib
        simpa using this
      have hcnt : (leavesAt p.1 (D + 1)).length ≤ p.2.length := by
        rw [id2 (D + 1) (by omega), hplen]
        rw [preCnt_succ] at h
        omega
      have h2 := relabel_level_total p.1 (D + 1) p.2 hcnt
      obtain ⟨q, hq⟩ := Option.isSome_iff_exists.mp h2
      simp only [relabel_levels, Option.bind_eq_bind]
      rw [hp]
      simp only [Option.some_bind]
      rw [hq]
      simp

theorem sum_map_zero {α : Type} (l : List α) : (l.map (fun _ => (0 : Nat))).sum = 0 := by
  induction l with
  | nil => rfl
  | cons a l ih => simp [ih]

/-- Interleaved concatenation is a permutation of the two separated
concatenations. -/
theorem flatMap_append_perm {α β : Type} (L : List α) (f g : α → List β) :
    (L.flatMap (fun a => f a ++ g a)).Perm (L.flatMap f ++ L.flatMap g) := by
  induction L with
  | nil => simp
  | cons a L ih =>
      simp only [List.flatMap_cons]
      have h1 : (g a ++ (L.flatMap f ++ L.flatMap g)).Perm
          (L.flatMap f ++ (g a ++ L.flatMap g)) := by
        have h2 := (@List.perm_append_comm _ (g a) (L.flatMap f)).append_right
          (L.flatMap g)
        simpa [List.append_assoc] using h2
      have h3 : (g a ++ L.flatMap (fun a => f a ++ g a)).Perm
          (L.flatMap f ++ (g a ++ L.flatMap g)) :=
        (ih.append_left (g a)).trans h1
      have h4 := h3.append_left (f a)
      simpa [List.append_assoc] using h4

/-- The leaves listed level by level. -/
def levelLeaves (t : HTree) (D : Nat) : List (Option Nat) :=
  (List.range (D + 1)).flatMap (fun e => leavesAt t e)

/-- Listing leaves level by level is a permutation of `get_leaf`. -/
theorem levelLeaves_perm :
    ∀ (t : HTree) (D : Nat), tree_height t ≤ D + 1 →
      (levelLeaves t D).Perm (get_leaf t) := by
  intro t
  induction t with
  | null =>
      intro D _
      have hz : (List.range (D + 1)).flatMap (fun e => leavesAt HTree.null e) = [] := by
        rw [List.flatMap_eq_nil_iff]
        intro e _
        rfl
      simp [levelLeaves, hz, get_leaf]
  | mk s l r num ihl ihr =>
      intro D hh
      by_cases hleaf : (HTree.mk s l r num).is_leaf = true
      · obtain ⟨hl0, hr0⟩ := is_leaf_iff.mp hleaf
        subst hl0; subst hr0
        have hone : levelLeaves (HTree.mk s .null .null num) D = [s] := by
          unfold levelLeaves
          rw [List.range_succ_eq_map, List.flatMap_cons, List.flatMap_map]
          have h0 : leavesAt (HTree.mk s .null .null num) 0 = [s] := by
            simp [leavesAt, HTree.is_leaf]
          have hz : (List.range D).flatMap
              (fun e => leavesAt (HTree.mk s .null .null num) (Nat.succ e)) = [] := by
            rw [List.flatMap_eq_nil_iff]
            intro e _
            simp [leavesAt]
          rw [h0, hz]
          rfl
        rw [hone]
        simp [get_leaf, HTree.is_leaf]
      · have hlf : (HTree.mk s l r num).is_leaf = false := by simpa using hleaf
        cases D with
        | zero =>
            exfalso
            simp only [tree_height] at hh
            have hl0 : tree_height l = 0 := by omega
            have hr0 : tree_height r = 0 := by omega
            rw [tree_height_eq_zero] at hl0 hr0
            exact hleaf (is_leaf_iff.mpr ⟨hl0, hr0⟩)
        | succ D =>
            have hperm : (levelLeaves (HTree.mk s l r num) (D + 1)).Perm
                (levelLeaves l D ++ levelLeaves r D) := by
              unfold levelLeaves
              rw [List.range_succ_eq_map, List.flatMap_cons, List.flatMap_map]
              have h0 : leavesAt (HTree.mk s l r num) 0 = [] := by
                simp [leavesAt, hlf]
              have hfun : (fun e => leavesAt (HTree.mk s l r num) (Nat.succ e)) =
                  fun e => leavesAt l e ++ leavesAt r e := by
                funext e
                rfl
              rw [h0, hfun, List.nil_append]
              exact flatMap_append_perm _ _ _
            simp only [tree_height] at hh
            have hl := ihl D (by omega)
            have hr := ihr D (by omega)
            refine (hperm.trans (hl.append hr)).trans ?_
            rw [get_leaf_internal hlf]
            exact List.perm_append_comm

/-- Total leaf weight and weighted depth sum as sums over the levels. -/
theorem level_sums (freq : List (Nat × Nat)) :
    ∀ (t : HTree) (D : Nat), tree_height t ≤ D + 1 →
      ((List.range (D + 1)).map
          (fun e => ((leavesAt t e).map (wOf freq)).sum)).sum = leafWeightSum freq t ∧
      ((List.range (D + 1)).map
          (fun e => e * ((leavesAt t e).map (wOf freq)).sum)).sum = wds freq t := by
  intro t
  induction t with
  | null =>
      intro D _
      constructor
      · rw [show leafWeightSum freq HTree.null = 0 from rfl]
        apply List.sum_eq_zero
        intro x hx
        simp only [List.mem_map] at hx
        obtain ⟨e, -, he⟩ := hx
        rw [← he]
        rfl
      · rw [show wds freq HTree.null = 0 from rfl]
        apply List.sum_eq_zero
        intro x hx
        simp only [List.mem_map] at hx
        obtain ⟨e, -, he⟩ := hx
        rw [← he]
        simp [leavesAt]
  | mk s l r num ihl ihr =>
      intro D hh
      by_cases hleaf : (HTree.mk s l r num).is_leaf = true
      · obtain ⟨hl0, hr0⟩ := is_leaf_iff.mp hleaf
        subst hl0; subst hr0
        have h0 : leavesAt (HTree.mk s .null .null num) 0 = [s] := by
          simp [leavesAt, HTree.is_leaf]
        have hs : ∀ e, leavesAt (HTree.mk s .null .null num) (e + 1) = [] := by
          intro e
          simp [leavesAt]
        constructor
        · rw [List.range_succ_eq_map]
          simp only [List.map_cons, List.sum_cons, List.map_map]
          have hfun : ((fun e => ((leavesAt (HTree.mk s .null .null num) e).map
              (wOf freq)).sum) ∘ Nat.succ) = fun _ => 0 := by
            funext e
            simp [Function.comp, hs e]
          rw [h0, hfun, sum_map_zero]
          simp [leafWeightSum, HTree.is_leaf]
        · rw [List.range_succ_eq_map]
          simp only [List.map_cons, List.sum_cons, List.map_map]
          have hfun : ((fun e => e * ((leavesAt (HTree.mk s .null .null num) e).map
              (wOf freq)).sum) ∘ Nat.succ) = fun _ => 0 := by
            funext e
            simp [Function.comp, hs e]
          rw [hfun, sum_map_zero]
          simp [wds, HTree.is_leaf]
      · have hlf : (HTree.mk s l r num).is_leaf = false := by simpa using hleaf
        cases D with
        | zero =>
            exfalso
            simp only [tree_height] at hh
            have hl0 : tree_height l = 0 := by omega
            have hr0 : tree_height r = 0 := by omega
            rw [tree_height_eq_zero] at hl0 hr0
            exact hleaf (is_leaf_iff.mpr ⟨hl0, hr0⟩)
        | succ D =>
            simp only [tree_height] at hh
            obtain ⟨hl1, hl2⟩ := ihl D (by omega)
            obtain ⟨hr1, hr2⟩ := ihr D (by omega)
            have h0 : leavesAt (HTree.mk s l r num) 0 = [] := by
              simp [leavesAt, hlf]
            have hs : ∀ e, leavesAt (HTree.mk s l r num) (e + 1) =
                leavesAt l e ++ leavesAt r e := fun _ => rfl
            constructor
            · rw [List.range_succ_eq_map]
              simp only [List.map_cons, List.sum_cons, List.map_map]
              have hfun : ((fun e => ((leavesAt (HTree.mk s l r num) e).map
                  (wOf freq)).sum) ∘ Nat.succ) =
                  fun e => ((leavesAt l e).map (wOf freq)).sum +
                    ((leavesAt r e).map (wOf freq)).sum := by
                funext e
                simp [Function.comp, hs e]
              rw [h0, hfun, sum_map_add]
              simp only [List.map_nil, List.sum_nil, Nat.zero_add, hl1, hr1]
              simp [leafWeightSum, hlf]
            · rw [List.range_succ_eq_map]
              simp only [List.map_cons, List.sum_cons, List.map_map]
              have hfun : ((fun e => e * ((leavesAt (HTree.mk s l r num) e).map
                  (wOf freq)).sum) ∘ Nat.succ) =
                  fun e => (e * ((leavesAt l e).map (wOf freq)).sum +
                      e * ((leavesAt r e).map (wOf freq)).sum) +
                    (((leavesAt l e).map (wOf freq)).sum +
                      ((leavesAt r e).map (wOf freq)).sum) := by
                funext e
                simp only [Function.comp, hs e, List.map_append, List.sum_append,
                  Nat.succ_eq_add_one]
                ring
              rw [hfun, sum_map_add, sum_map_add, sum_map_add]
              rw [hl1, hr1, hl2, hr2]
              simp only [Nat.zero_mul, Nat.zero_add]
              simp [wds, hlf]
              omega

/-- Consecutive `drop`/`take` slices concatenate back to a prefix. -/
theorem flatMap_slices {α : Type} (S : List α) (k : Nat → Nat) :
    ∀ D, ((List.range (D + 1)).flatMap
        (fun e => (S.drop (((List.range e).map k).sum)).take (k e))) =
      S.take (((List.range (D + 1)).map k).sum) := by
  intro D
  induction D with
  | zero => simp [List.range_succ]
  | succ D ih =>
      rw [List.range_succ (D + 1), List.flatMap_append, ih]
      rw [List.map_append, List.sum_append]
      simp only [List.flatMap_cons, List.flatMap_nil, List.append_nil, List.map_cons,
        List.map_nil, List.sum_cons, List.sum_nil, Nat.add_zero]
      rw [List.take_add]

theorem zip_const_sum : ∀ (l : List Nat) (a : Nat),
    (List.zipWith (· * ·) (List.replicate l.length a) l).sum = a * l.sum := by
  intro l
  induction l with
  | nil => intro a; simp
  | cons x l ih =>
      intro a
      simp only [List.length_cons, List.replicate_succ, List.zipWith_cons_cons,
        List.sum_cons, ih a, List.sum_cons]
      ring

/-- Block-diagonal inner product: weights flattened level by level against
the level indices repeated blockwise. -/
theorem zip_flat_sum : ∀ (L : List Nat) (g : Nat → List Nat),
    (List.zipWith (· * ·) (L.flatMap (fun e => List.replicate (g e).length e))
      (L.flatMap g)).sum = (L.map (fun e => e * (g e).sum)).sum := by
  intro L
  induction L with
  | nil => intro g; simp
  | cons a L ih =>
      intro g
      simp only [List.flatMap_cons, List.map_cons, List.sum_cons]
      rw [List.zipWith_append _ _ _ _ _ (by simp), List.sum_append, zip_const_sum, ih]

theorem replicate_sorted (n : Nat) (a : Nat) :
    (List.replicate n a).Sorted (· ≤ ·) := by
  induction n with
  | zero => simp [List.Sorted]
  | succ n ih =>
      rw [List.replicate_succ, List.sorted_cons]
      exact ⟨fun b hb => by simp [List.mem_replicate] at hb; omega, ih⟩

/-- The blockwise depth list `0…0 1…1 … D…D` is nondecreasing. -/
theorem depthList_sorted (k : Nat → Nat) :
    ∀ D, ((List.range (D + 1)).flatMap
      (fun e => List.replicate (k e) e)).Sorted (· ≤ ·) := by
  intro D
  induction D with
  | zero => simpa [List.range_succ] using replicate_sorted (k 0) 0
  | succ D ih =>
      rw [List.range_succ (D + 1), List.flatMap_append]
      simp only [List.flatMap_cons, List.flatMap_nil, List.append_nil]
      rw [List.Sorted, List.pairwise_append]
      refine ⟨ih, replicate_sorted _ _, ?_⟩
      intro x hx y hy
      simp only [List.mem_flatMap, List.mem_replicate, List.mem_range] at hx hy
      obtain ⟨e, he, -, hxe⟩ := hx
      omega

instance : IsTotal (Nat × Nat) tupLe :=
  ⟨by intro a b; unfold tupLe; omega⟩

instance : IsTrans (Nat × Nat) tupLe :=
  ⟨by intro a b c; unfold tupLe; omega⟩

/-- Looking up a present key in a dict with distinct keys. -/
theorem dictGet_of_mem :
    ∀ (freq : List (Nat × Nat)) (k v : Nat), (freq.map Prod.fst).Nodup →
      (k, v) ∈ freq → dictGet freq k = some v := by
  intro freq
  induction freq with
  | nil => intro k v _ hm; cases hm
  | cons p rest ih =>
      intro k v hnd hm
      simp only [List.map_cons, List.nodup_cons] at hnd
      obtain ⟨hp, hrest⟩ := hnd
      by_cases hk : p.1 = k
      · rcases List.mem_cons.mp hm with hm1 | hm2
        · rw [← hm1]
          simp [dictGet, List.find?_cons_of_pos]
        · exfalso
          apply hp
          rw [hk]
          exact List.mem_map.mpr ⟨(k, v), hm2, rfl⟩
      · rcases List.mem_cons.mp hm with hm1 | hm2
        · exfalso
          apply hk
          rw [← hm1]
        · rw [show dictGet (p :: rest) k = dictGet rest k from by
            simp [dictGet, List.find?_cons_of_neg, hk]]
          exact ih k v hrest hm2

theorem sum_flatMap_nat {α : Type} (l : List α) (g : α → List Nat) :
    (l.flatMap g).sum = (l.map (fun a => (g a).sum)).sum := by
  induction l with
  | nil => rfl
  | cons a l ih => simp [List.flatMap_cons, List.sum_append, ih]

/-- The combinatorial heart of C9: `improve_tree` succeeds on a tree whose
leaf symbols are exactly the dictionary keys, preserves well-formedness,
distinctness, key coverage and the total leaf weight, and does not
increase the weighted depth sum (rearrangement bound: the sorted pops
hand the heaviest remaining symbol to the shallowest unfilled leaf). -/
theorem improve_tree_spec (t : HTree) (freq : List (Nat × Nat))
    (hwf : wf t = true) (hnd : (get_leaf t).Nodup)
    (hkeys : (freq.map Prod.fst).Nodup)
    (hperm : (get_leaf t).Perm (freq.map (fun p => some p.1))) :
    ∃ t', improve_tree t freq = some t' ∧
      wf t' = true ∧ (get_leaf t').Nodup ∧
      (∀ s ∈ get_leaf t', ∃ v fv, s = some v ∧ dictGet freq v = some fv) ∧
      leafWeightSum freq t' = leafWeightSum freq t ∧
      wds freq t' ≤ wds freq t := by
  set D := tree_height t with hD
  set FS := List.insertionSort tupLe (freq.map (fun p => (p.2, p.1))) with hFS
  have hFSperm : FS.Perm (freq.map (fun p => (p.2, p.1))) :=
    List.perm_insertionSort tupLe _
  have hhle : tree_height t ≤ D + 1 := by omega
  have hLLperm : (levelLeaves t D).Perm (get_leaf t) := levelLeaves_perm t D hhle
  have hlenLL : (levelLeaves t D).length = preCnt t (D + 1) := by
    rw [levelLeaves, List.length_flatMap]
    rfl
  have hFSlen : FS.length = freq.length := by
    simpa using hFSperm.length_eq
  have hcount : preCnt t (D + 1) = FS.length := by
    rw [← hlenLL, hLLperm.length_eq, hperm.length_eq, List.length_map, hFSlen]
  have htot := relabel_levels_total D t FS (by rw [hcount])
  obtain ⟨pr, hpr⟩ := Option.isSome_iff_exists.mp htot
  have himp : improve_tree t freq = some pr.1 := by
    unfold improve_tree
    dsimp only
    rw [← hFS, ← hD, hpr]
    rfl
  obtain ⟨ia, ib, ic, id2, ie, if2⟩ := relabel_levels_spec D t FS pr.1 pr.2 (by rw [hpr])
  have hw' : wf pr.1 = true := ie hwf
  have hh' : tree_height pr.1 = D := if2
  have hmemfreq : ∀ p ∈ FS, (p.2, p.1) ∈ freq := by
    intro p hp
    have hp2 := hFSperm.mem_iff.mp hp
    obtain ⟨q, hq, hqe⟩ := List.mem_map.mp hp2
    rw [← hqe]
    simpa using hq
  have hslice : (List.range (D + 1)).flatMap (fun e => leavesAt pr.1 e) =
      FS.reverse.map (fun p => some p.2) := by
    have h1 : (List.range (D + 1)).flatMap (fun e => leavesAt pr.1 e) =
        (List.range (D + 1)).flatMap (fun e =>
          ((FS.reverse.drop (preCnt t e)).take ((leavesAt t e).length)).map
            (fun p => some p.2)) := by
      rw [List.flatMap_def, List.flatMap_def]
      congr 1
      apply List.map_congr_left
      intro e he
      rw [List.mem_range] at he
      exact ic e (by omega)
    have h2 : ((List.range (D + 1)).flatMap (fun e =>
        (FS.reverse.drop (preCnt t e)).take ((leavesAt t e).length))) =
        FS.reverse.take (preCnt t (D + 1)) := by
      have h3 := flatMap_slices FS.reverse (fun e => (leavesAt t e).length) D
      simpa [preCnt] using h3
    rw [h1, ← List.map_flatMap, h2]
    rw [show preCnt t (D + 1) = FS.reverse.length from by rw [hcount]; simp]
    rw [List.take_length]
  have hLL' : levelLeaves pr.1 D = FS.reverse.map (fun p => some p.2) := hslice
  have hLL'perm : (levelLeaves pr.1 D).Perm (get_leaf pr.1) :=
    levelLeaves_perm pr.1 D (by rw [hh']; omega)
  have hgl' : (get_leaf pr.1).Perm (FS.reverse.map (fun p => some p.2)) := by
    have h := hLL'perm.symm
    rw [hLL'] at h
    exact h
  have hFSsnd : (FS.map Prod.snd).Perm (freq.map Prod.fst) := by
    have h := hFSperm.map Prod.snd
    simpa [List.map_map, Function.comp] using h
  have hnd' : (get_leaf pr.1).Nodup := by
    apply hgl'.symm.nodup
    rw [show FS.reverse.map (fun p : Nat × Nat => some p.2) =
        ((FS.map Prod.snd).map some).reverse from by
      rw [List.map_reverse, List.map_map]
      rfl]
    rw [List.nodup_reverse]
    exact (hFSsnd.symm.nodup hkeys).map (Option.some_injective _)
  have hkeys' : ∀ s ∈ get_leaf pr.1, ∃ v fv, s = some v ∧ dictGet freq v = some fv := by
    intro s hs
    have hs2 := hgl'.mem_iff.mp hs
    obtain ⟨p, hp, hpe⟩ := List.mem_map.mp hs2
    exact ⟨p.2, p.1, hpe.symm,
      dictGet_of_mem freq p.2 p.1 hkeys (hmemfreq p (List.mem_reverse.mp hp))⟩
  have hW'eq : (levelLeaves pr.1 D).map (wOf freq) = FS.reverse.map Prod.fst := by
    rw [hLL', List.map_map]
    apply List.map_congr_left
    intro p hp
    have hm := hmemfreq p (List.mem_reverse.mp hp)
    simp only [Function.comp]
    rw [show wOf freq (some p.2) = (dictGet freq p.2).getD 0 from rfl]
    rw [dictGet_of_mem freq p.2 p.1 hkeys hm]
    rfl
  have hWtpermA : ((levelLeaves t D).map (wOf freq)).Perm (freq.map Prod.snd) := by
    have h := (hLLperm.trans hperm).map (wOf freq)
    rw [List.map_map] at h
    have heq : freq.map (wOf freq ∘ fun p : Nat × Nat => some p.1) = freq.map Prod.snd := by
      apply List.map_congr_left
      intro p hp
      simp only [Function.comp]
      rw [show wOf freq (some p.1) = (dictGet freq p.1).getD 0 from rfl]
      rw [dictGet_of_mem freq p.1 p.2 hkeys (by simpa using hp)]
      rfl
    rw [heq] at h
    exact h
  have hW'permA : (FS.reverse.map Prod.fst).Perm (freq.map Prod.snd) := by
    have h1 : (FS.reverse.map Prod.fst).Perm (FS.map Prod.fst) :=
      FS.reverse_perm.map Prod.fst
    refine h1.trans ?_
    have h2 := hFSperm.map Prod.fst
    simpa [List.map_map, Function.comp] using h2
  have hWtperm : ((levelLeaves t D).map (wOf freq)).Perm (FS.reverse.map Prod.fst) :=
    hWtpermA.trans hW'permA.symm
  have hFSsorted : FS.Sorted tupLe := List.sorted_insertionSort tupLe _
  have hfstSorted : (FS.map Prod.fst).Sorted (· ≤ ·) :=
    List.Pairwise.map Prod.fst (fun a b hab => by unfold tupLe at hab; omega) hFSsorted
  have hdesc : (FS.reverse.map Prod.fst).Sorted (fun a b => b ≤ a) := by
    rw [List.map_reverse, List.Sorted, List.pairwise_reverse]
    simpa [List.Sorted] using hfstSorted
  have hdl := depthList_sorted (fun e => (leavesAt t e).length) D
  have hdllen : ((List.range (D + 1)).flatMap
      (fun e => List.replicate ((leavesAt t e).length) e)).length =
      (FS.reverse.map Prod.fst).length := by
    rw [List.length_flatMap, List.length_map, List.length_reverse, ← hcount]
    simp [preCnt, Function.comp_def]
  have hzt := zip_flat_sum (List.range (D + 1)) (fun e => (leavesAt t e).map (wOf freq))
  rw [show (fun e => List.replicate ((leavesAt t e).map (wOf freq)).length e) =
      (fun e => List.replicate ((leavesAt t e).length) e) from by
    funext e
    rw [List.length_map]] at hzt
  rw [(level_sums freq t D hhle).2] at hzt
  rw [show ((List.range (D + 1)).flatMap fun e => (leavesAt t e).map (wOf freq)) =
      (levelLeaves t D).map (wOf freq) from by
    simp only [levelLeaves]
    rw [List.map_flatMap]] at hzt
  have hlen' : ∀ e, e ≤ D → (leavesAt pr.1 e).length = (leavesAt t e).length := by
    intro e he
    rw [ic e he]
    rw [List.length_map, List.length_take, List.length_drop, List.length_reverse]
    have h1 : preCnt t (e + 1) ≤ preCnt t (D + 1) := preCnt_mono t (by omega)
    have h2 := preCnt_succ t e
    rw [hcount] at h1
    omega
  have hzt' := zip_flat_sum (List.range (D + 1)) (fun e => (leavesAt pr.1 e).map (wOf freq))
  rw [show (fun e => List.replicate ((leavesAt pr.1 e).map (wOf freq)).length e) =
      (fun e => List.replicate ((leavesAt pr.1 e).length) e) from by
    funext e
    rw [List.length_map]] at hzt'
  rw [show ((List.range (D + 1)).flatMap fun e =>
      List.replicate ((leavesAt pr.1 e).length) e) =
      ((List.range (D + 1)).flatMap fun e =>
        List.replicate ((leavesAt t e).length) e) from by
    rw [List.flatMap_def, List.flatMap_def]
    congr 1
    apply List.map_congr_left
    intro e he
    rw [List.mem_range] at he
    rw [hlen' e (by omega)]] at hzt'
  rw [(level_sums freq pr.1 D (by rw [hh']; omega)).2] at hzt'
  rw [show ((List.range (D + 1)).flatMap fun e => (leavesAt pr.1 e).map (wOf freq)) =
      (levelLeaves pr.1 D).map (wOf freq) from by
    simp only [levelLeaves]
    rw [List.map_flatMap]] at hzt'
  rw [hW'eq] at hzt'
  have hineq := zip_rearrangement
    ((List.range (D + 1)).flatMap fun e => List.replicate ((leavesAt t e).length) e)
    (FS.reverse.map Prod.fst)
    ((levelLeaves t D).map (wOf freq))
    hdl hdesc hWtperm hdllen
  rw [hzt', hzt] at hineq
  have h4 : ((List.range (D + 1)).map
      (fun e => ((leavesAt t e).map (wOf freq)).sum)).sum =
      ((levelLeaves t D).map (wOf freq)).sum := by
    rw [show (levelLeaves t D).map (wOf freq) =
        (List.range (D + 1)).flatMap (fun e => (leavesAt t e).map (wOf freq)) from by
      simp only [levelLeaves]
      rw [List.map_flatMap]]
    rw [sum_flatMap_nat]
  have h5 : ((List.range (D + 1)).map
      (fun e => ((leavesAt pr.1 e).map (wOf freq)).sum)).sum =
      ((levelLeaves pr.1 D).map (wOf freq)).sum := by
    rw [show (levelLeaves pr.1 D).map (wOf freq) =
        (List.range (D + 1)).flatMap (fun e => (leavesAt pr.1 e).map (wOf freq)) from by
      simp only [levelLeaves]
      rw [List.map_flatMap]]
    rw [sum_flatMap_nat]
  have hlws : leafWeightSum freq pr.1 = leafWeightSum freq t := by
    rw [← (level_sums freq t D hhle).1, ← (level_sums freq pr.1 D (by rw [hh']; omega)).1]
    rw [h4, h5, hW'eq]
    exact hWtperm.sum_eq.symm
  exact ⟨pr.1, himp, hw', hnd', hkeys', hlws, hineq⟩

/-- C9: for every well-formed tree whose (distinct) leaf symbols are
exactly the keys of the frequency dictionary (of nonzero total weight),
`improve_tree` succeeds and does not increase the frequency-weighted
average code length computed by `avg_length`. -/
theorem claim_C9 (t : HTree) (freq : List (Nat × Nat))
    (hwf : wf t = true) (hnd : (get_leaf t).Nodup)
    (hkeys : (freq.map Prod.fst).Nodup)
    (hperm : (get_leaf t).Perm (freq.map (fun p => some p.1)))
    (h0 : leafWeightSum freq t ≠ 0) :
    ∃ t' a b, improve_tree t freq = some t' ∧
      avg_length t freq = some a ∧ avg_length t' freq = some b ∧ b ≤ a := by
  obtain ⟨t', himp, hw', hnd', hkeys', hlws, hwds⟩ :=
    improve_tree_spec t freq hwf hnd hkeys hperm
  have hkt : ∀ s ∈ get_leaf t, ∃ v fv, s = some v ∧ dictGet freq v = some fv := by
    intro s hs
    have hs2 := hperm.mem_iff.mp hs
    obtain ⟨p, hp, hpe⟩ := List.mem_map.mp hs2
    exact ⟨p.1, p.2, hpe.symm, dictGet_of_mem freq p.1 p.2 hkeys (by simpa using hp)⟩
  have havg_t := avg_length_eq t freq hwf hnd hkt
  have havg' := avg_length_eq t' freq hw' hnd' hkeys'
  rw [if_neg h0] at havg_t
  rw [hlws, if_neg h0] at havg'
  refine ⟨t', (wds freq t : Rat) / (leafWeightSum freq t : Rat),
    (wds freq t' : Rat) / (leafWeightSum freq t : Rat), himp, havg_t, havg', ?_⟩
  have hc : (0 : Rat) < (leafWeightSum freq t : Rat) := by
    exact_mod_cast Nat.pos_of_ne_zero h0
  apply (div_le_div_right hc).mpr
  exact_mod_cast hwds

/-- Witness for C9 on the two-leaf tree over `{1: 3, 2: 5}`. -/
theorem claim_C9_witness :
    ∃ t' a b,
      improve_tree (HTree.mk none (HTree.mk (some 1) .null .null none)
        (HTree.mk (some 2) .null .null none) none) [(1, 3), (2, 5)] = some t' ∧
      avg_length (HTree.mk none (HTree.mk (some 1) .null .null none)
        (HTree.mk (some 2) .null .null none) none) [(1, 3), (2, 5)] = some a ∧
      avg_length t' [(1, 3), (2, 5)] = some b ∧ b ≤ a :=
  claim_C9 (HTree.mk none (HTree.mk (some 1) .null .null none)
      (HTree.mk (some 2) .null .null none) none) [(1, 3), (2, 5)]
    (by decide) (by decide) (by decide) (by decide) (by decide)

/-- Full binary weight trees: the abstract shape of a merge schedule.
Every prefix tree over the alphabet projects onto one (unary nodes
contracted), and the Huffman merge loop builds one. -/
inductive MTree where
  | leaf (w : Nat)
  | node (l r : MTree)
deriving DecidableEq, Repr

/-- Total weight of the leaves. -/
def mtotal : MTree → Nat
  | .leaf w => w
  | .node l r => mtotal l + mtotal r

/-- Merge cost: the sum over leaves of weight times depth. -/
def mcost : MTree → Nat
  | .leaf _ => 0
  | .node l r => mcost l + mcost r + mtotal l + mtotal r

/-- Leaf weights, left to right. -/
def mweights : MTree → List Nat
  | .leaf w => [w]
  | .node l r => mweights l ++ mweights r

def mheight : MTree → Nat
  | .leaf _ => 0
  | .node l r => max (mheight l) (mheight r) + 1

/-- The weight at a leaf position (`false` = left). -/
def getw : MTree → List Bool → Option Nat
  | .leaf w, [] => some w
  | .node l _, false :: p => getw l p
  | .node _ r, true :: p => getw r p
  | _, _ => none

/-- Replace the weight at a leaf position (shape unchanged). -/
def setw : MTree → List Bool → Nat → MTree
  | .leaf _, [], v => .leaf v
  | .node l r, false :: p, v => .node (setw l p v) r
  | .node l r, true :: p, v => .node l (setw r p v)
  | t, _, _ => t

/-- Contract the cherry `node (leaf x) (leaf y)` at a position into
`leaf (x + y)`. -/
def contract : MTree → List Bool → MTree
  | .node (.leaf x) (.leaf y), [] => .leaf (x + y)
  | .node l r, false :: p => .node (contract l p) r
  | .node l r, true :: p => .node l (contract r p)
  | t, _ => t

theorem mweights_ne_nil : ∀ M : MTree, mweights M ≠ [] := by
  intro M
  induction M with
  | leaf w => simp [mweights]
  | node l r ihl ihr => simp [mweights, ihl]

theorem mtotal_eq_sum : ∀ M : MTree, mtotal M = (mweights M).sum := by
  intro M
  induction M with
  | leaf w => simp [mtotal, mweights]
  | node l r ihl ihr => simp [mtotal, mweights, ihl, ihr]

theorem getw_length_le :
    ∀ (M : MTree) (p : List Bool) (w : Nat), getw M p = some w →
      p.length ≤ mheight M := by
  intro M
  induction M with
  | leaf w' =>
      intro p w h
      cases p with
      | nil => simp [mheight]
      | cons b p => simp [getw] at h
  | node l r ihl ihr =>
      intro p w h
      cases p with
      | nil => simp [getw] at h
      | cons b p =>
          cases b with
          | false =>
              have := ihl p w h
              simp only [List.length_cons, mheight]
              omega
          | true =>
              have := ihr p w h
              simp only [List.length_cons, mheight]
              omega

theorem getw_mem :
    ∀ (M : MTree) (p : List Bool) (w : Nat), getw M p = some w → w ∈ mweights M := by
  intro M
  induction M with
  | leaf w' =>
      intro p w h
      cases p with
      | nil =>
          simp only [getw, Option.some.injEq] at h
          simp [mweights, h]
      | cons b p => simp [getw] at h
  | node l r ihl ihr =>
      intro p w h
      cases p with
      | nil => simp [getw] at h
      | cons b p =>
          cases b with
          | false => exact List.mem_append.mpr (Or.inl (ihl p w h))
          | true => exact List.mem_append.mpr (Or.inr (ihr p w h))

theorem mheight_setw : ∀ (M : MTree) (p : List Bool) (v : Nat),
    mheight (setw M p v) = mheight M := by
  intro M
  induction M with
  | leaf w =>
      intro p v
      cases p <;> simp [setw, mheight]
  | node l r ihl ihr =>
      intro p v
      cases p with
      | nil => rfl
      | cons b p => cases b <;> simp [setw, mheight, ihl, ihr]

theorem getw_setw_self : ∀ (M : MTree) (p : List Bool) (w v : Nat),
    getw M p = some w → getw (setw M p v) p = some v := by
  intro M
  induction M with
  | leaf w' =>
      intro p w v h
      cases p with
      | nil => rfl
      | cons b p => simp [getw] at h
  | node l r ihl ihr =>
      intro p w v h
      cases p with
      | nil => simp [getw] at h
      | cons b p =>
          cases b with
          | false => exact ihl p w v h
          | true => exact ihr p w v h

theorem getw_setw_ne : ∀ (M : MTree) (p q : List Bool) (v : Nat), p ≠ q →
    getw (setw M p v) q = getw M q := by
  intro M
  induction M with
  | leaf w =>
      intro p q v hne
      cases p with
      | nil =>
          cases q with
          | nil => exact absurd rfl hne
          | cons b q => simp [setw, getw]
      | cons b p => rfl
  | node l r ihl ihr =>
      intro p q v hne
      cases p with
      | nil => rfl
      | cons bp p =>
          cases q with
          | nil => cases bp <;> simp [setw, getw]
          | cons bq q =>
              cases bp <;> cases bq <;>
                simp only [setw, getw]
              · exact ihl p q v (by intro hc; exact hne (by rw [hc]))
              · exact ihr p q v (by intro hc; exact hne (by rw [hc]))

theorem exists_path_of_mem :
    ∀ (M : MTree) (w : Nat), w ∈ mweights M → ∃ p, getw M p = some w := by
  intro M
  induction M with
  | leaf w' =>
      intro w hw
      simp only [mweights, List.mem_singleton] at hw
      exact ⟨[], by simp [getw, hw]⟩
  | node l r ihl ihr =>
      intro w hw
      rcases List.mem_append.mp hw with hm | hm
      · obtain ⟨p, hp⟩ := ihl w hm
        exact ⟨false :: p, hp⟩
      · obtain ⟨p, hp⟩ := ihr w hm
        exact ⟨true :: p, hp⟩

/-- Decomposition of the weight list at a leaf position: the slot's
weight sits at a fixed spot, `setw` rewrites exactly that spot and shifts
the cost by depth times the weight change, and every other position's
weight lies outside the slot. -/
theorem path_decomp : ∀ (M : MTree) (p : List Bool) (wp : Nat), getw M p = some wp →
    ∃ pre post, mweights M = pre ++ wp :: post ∧
      (∀ v, mweights (setw M p v) = pre ++ v :: post) ∧
      (∀ v, mcost (setw M p v) + p.length * wp = mcost M + p.length * v) ∧
      (∀ q wq, q ≠ p → getw M q = some wq → wq ∈ pre ++ post) ∧
      (∀ w, w ∈ pre ++ post → ∃ q, q ≠ p ∧ getw M q = some w) := by
  intro M
  induction M with
  | leaf w =>
      intro p wp h
      cases p with
      | nil =>
          simp only [getw, Option.some.injEq] at h
          subst h
          refine ⟨[], [], rfl, fun v => rfl, fun v => by simp [setw, mcost], ?_, ?_⟩
          · intro q wq hq hgq
            cases q with
            | nil => exact absurd rfl hq
            | cons b q => simp [getw] at hgq
          · intro w hw
            simp at hw
      | cons b p => simp [getw] at h
  | node l r ihl ihr =>
      intro p wp h
      cases p with
      | nil => simp [getw] at h
      | cons bp p =>
          cases bp with
          | false =>
              obtain ⟨pre, post, h1, h2, h3, h4, h5⟩ := ihl p wp h
              refine ⟨pre, post ++ mweights r, ?_, ?_, ?_, ?_, ?_⟩
              · simp [mweights, h1]
              · intro v
                simp [setw, mweights, h2 v]
              · intro v
                have hc := h3 v
                have ht : mtotal (setw l p v) + wp = mtotal l + v := by
                  rw [mtotal_eq_sum, mtotal_eq_sum, h1, h2 v]
                  simp [List.sum_append]
                  omega
                simp only [setw, mcost, List.length_cons]
                have hexp : (p.length + 1) * wp = p.length * wp + wp := by ring
                have hexp2 : (p.length + 1) * v = p.length * v + v := by ring
                omega
              · intro q wq hq hgq
                cases q with
                | nil => simp [getw] at hgq
                | cons bq q =>
                    cases bq with
                    | false =>
                        have hmem := h4 q wq (by
                          intro hc
                          exact hq (by rw [hc])) hgq
                        rw [List.mem_append] at hmem
                        rcases hmem with hm | hm
                        · exact List.mem_append.mpr (Or.inl hm)
                        · exact List.mem_append.mpr (Or.inr (List.mem_append.mpr (Or.inl hm)))
                    | true =>
                        have hmem := getw_mem r q wq hgq
                        exact List.mem_append.mpr (Or.inr (List.mem_append.mpr (Or.inr hmem)))
              · intro w hw
                rcases List.mem_append.mp hw with hm | hm
                · obtain ⟨q, hqne, hqg⟩ := h5 w (List.mem_append.mpr (Or.inl hm))
                  exact ⟨false :: q, by simpa using hqne, hqg⟩
                · rcases List.mem_append.mp hm with hm2 | hm2
                  · obtain ⟨q, hqne, hqg⟩ := h5 w (List.mem_append.mpr (Or.inr hm2))
                    exact ⟨false :: q, by simpa using hqne, hqg⟩
                  · obtain ⟨q, hqg⟩ := exists_path_of_mem r w hm2
                    exact ⟨true :: q, by simp, hqg⟩
          | true =>
              obtain ⟨pre, post, h1, h2, h3, h4, h5⟩ := ihr p wp h
              refine ⟨mweights l ++ pre, post, ?_, ?_, ?_, ?_, ?_⟩
              · simp [mweights, h1]
              · intro v
                simp [setw, mweights, h2 v]
              · intro v
                have hc := h3 v
                have ht : mtotal (setw r p v) + wp = mtotal r + v := by
                  rw [mtotal_eq_sum, mtotal_eq_sum, h1, h2 v]
                  simp [List.sum_append]
                  omega
                simp only [setw, mcost, List.length_cons]
                have hexp : (p.length + 1) * wp = p.length * wp + wp := by ring
                have hexp2 : (p.length + 1) * v = p.length * v + v := by ring
                omega
              · intro q wq hq hgq
                cases q with
                | nil => simp [getw] at hgq
                | cons bq q =>
                    cases bq with
                    | false =>
                        have hmem := getw_mem l q wq hgq
                        exact List.mem_append.mpr (Or.inl (List.mem_append.mpr (Or.inl hmem)))
                    | true =>
                        have hmem := h4 q wq (by
                          intro hc
                          exact hq (by rw [hc])) hgq
                        rw [List.mem_append] at hmem
                        rcases hmem with hm | hm
                        · exact List.mem_append.mpr (Or.inl (List.mem_append.mpr (Or.inr hm)))
                        · exact List.mem_append.mpr (Or.inr hm)
              · intro w hw
                rcases List.mem_append.mp hw with hm | hm
                · rcases List.mem_append.mp hm with hm2 | hm2
                  · obtain ⟨q, hqg⟩ := exists_path_of_mem l w hm2
                    exact ⟨false :: q, by simp, hqg⟩
                  · obtain ⟨q, hqne, hqg⟩ := h5 w (List.mem_append.mpr (Or.inl hm2))
                    exact ⟨true :: q, by simpa using hqne, hqg⟩
                · obtain ⟨q, hqne, hqg⟩ := h5 w (List.mem_append.mpr (Or.inr hm))
                  exact ⟨true :: q, by simpa using hqne, hqg⟩

/-- Contracting a cherry removes one merge: the two weights fuse and the
cost drops by exactly their sum. -/
theorem contract_spec : ∀ (p : List Bool) (M : MTree) (x y : Nat),
    getw M (p ++ [false]) = some x → getw M (p ++ [true]) = some y →
    ∃ pre post, mweights M = pre ++ x :: y :: post ∧
      mweights (contract M p) = pre ++ (x + y) :: post ∧
      mtotal (contract M p) = mtotal M ∧
      mcost (contract M p) + (x + y) = mcost M := by
  intro p
  induction p with
  | nil =>
      intro M x y hx hy
      cases M with
      | leaf w => simp [getw] at hx
      | node l r =>
          simp only [List.nil_append] at hx hy
          cases l with
          | node _ _ => simp [getw] at hx
          | leaf wx =>
              cases r with
              | node _ _ => simp [getw] at hy
              | leaf wy =>
                  simp only [getw, Option.some.injEq] at hx hy
                  subst hx; subst hy
                  refine ⟨[], [], rfl, rfl, ?_, ?_⟩
                  · simp [contract, mtotal]
                  · simp [contract, mcost, mtotal]
  | cons b p ih =>
      intro M x y hx hy
      cases M with
      | leaf w => simp [getw] at hx
      | node l r =>
          cases b with
          | false =>
              simp only [List.cons_append, getw] at hx hy
              obtain ⟨pre, post, h1, h2, h3, h4⟩ := ih l x y hx hy
              refine ⟨pre, post ++ mweights r, ?_, ?_, ?_, ?_⟩
              · simp [mweights, h1]
              · simp [contract, mweights, h2]
              · simp [contract, mtotal, h3]
              · simp only [contract, mcost, h3]
                omega
          | true =>
              simp only [List.cons_append, getw] at hx hy
              obtain ⟨pre, post, h1, h2, h3, h4⟩ := ih r x y hx hy
              refine ⟨mweights l ++ pre, post, ?_, ?_, ?_, ?_⟩
              · simp [mweights, h1]
              · simp [contract, mweights, h2]
              · simp [contract, mtotal, h3]
              · simp only [contract, mcost, h3]
                omega

theorem mheight_eq_zero {M : MTree} : mheight M = 0 ↔ ∃ w, M = .leaf w := by
  cases M <;> simp [mheight]

/-- Swapping the weights at a shallower position `q` (holding the smaller
weight) and a deeper position `p` never increases the merge cost and
permutes the weight list. -/
theorem swap_step (M : MTree) (p q : List Bool) (wp wq : Nat)
    (hp : getw M p = some wp) (hq : getw M q = some wq) (hne : p ≠ q)
    (hlen : q.length ≤ p.length) (hval : wq ≤ wp) :
    ∃ M', (mweights M').Perm (mweights M) ∧ mcost M' ≤ mcost M ∧
      getw M' p = some wq ∧ getw M' q = some wp ∧
      (∀ o, o ≠ p → o ≠ q → getw M' o = getw M o) ∧
      mheight M' = mheight M := by
  obtain ⟨pre, post, d1, d2, d3, -, -⟩ := path_decomp M p wp hp
  set M₁ := setw M p wq with hM₁
  have hq₁ : getw M₁ q = some wq := by
    rw [hM₁, getw_setw_ne M p q wq hne]
    exact hq
  obtain ⟨pre₂, post₂, e1, e2, e3, -, -⟩ := path_decomp M₁ q wq hq₁
  refine ⟨setw M₁ q wp, ?_, ?_, ?_, ?_, ?_, ?_⟩
  · rw [e2 wp]
    have hmid : (pre₂ ++ post₂).Perm (pre ++ post) := by
      have h1 : (wq :: (pre₂ ++ post₂)).Perm (wq :: (pre ++ post)) := by
        refine (List.perm_middle.symm.trans ?_)
        rw [← e1, d2 wq]
        exact List.perm_middle
      exact h1.cons_inv
    refine List.perm_middle.trans ?_
    refine (hmid.cons wp).trans ?_
    rw [d1]
    exact List.perm_middle.symm
  · have hc1 := d3 wq
    rw [← hM₁] at hc1
    have hc2 := e3 wp
    have hmul : q.length * wp + p.length * wq ≤ q.length * wq + p.length * wp :=
      mul_add_mul_le_mul_add_mul hlen hval
    omega
  · rw [getw_setw_ne M₁ q p wp hne.symm]
    rw [hM₁]
    exact getw_setw_self M p wp wq hp
  · exact getw_setw_self M₁ q wq wp hq₁
  · intro o hop hoq
    rw [getw_setw_ne M₁ q o wp (fun hc => hoq hc.symm), hM₁,
      getw_setw_ne M p o wq (fun hc => hop hc.symm)]
  · rw [mheight_setw, hM₁, mheight_setw]

/-- Every tree of positive height has a deepest cherry: two sibling
leaves at maximal depth. -/
theorem exists_cherry : ∀ M : MTree, 1 ≤ mheight M →
    ∃ p x y, getw M (p ++ [false]) = some x ∧ getw M (p ++ [true]) = some y ∧
      p.length + 1 = mheight M := by
  intro M
  induction M with
  | leaf w => intro h; simp [mheight] at h
  | node l r ihl ihr =>
      intro _
      by_cases hmax : mheight r ≤ mheight l
      · by_cases hl0 : mheight l = 0
        · have hr0 : mheight r = 0 := by omega
          obtain ⟨wx, hwx⟩ := mheight_eq_zero.mp hl0
          obtain ⟨wy, hwy⟩ := mheight_eq_zero.mp hr0
          subst hwx; subst hwy
          exact ⟨[], wx, wy, rfl, rfl, by simp [mheight]⟩
        · obtain ⟨p, x, y, hx, hy, hlen⟩ := ihl (by omega)
          refine ⟨false :: p, x, y, ?_, ?_, ?_⟩
          · simpa [getw] using hx
          · simpa [getw] using hy
          · simp only [List.length_cons, mheight]
            omega
      · have hr1 : 1 ≤ mheight r := by omega
        obtain ⟨p, x, y, hx, hy, hlen⟩ := ihr hr1
        refine ⟨true :: p, x, y, ?_, ?_, ?_⟩
        · simpa [getw] using hx
        · simpa [getw] using hy
        · simp only [List.length_cons, mheight]
          omega

/-- Greedy merge cost: repeatedly fuse the two smallest weights (the
abstract cost of the `huffman_tree` merge loop). -/
def hcost : Nat → List Nat → Nat
  | 0, _ => 0
  | fuel + 1, ws =>
      match List.insertionSort (· ≤ ·) ws with
      | w1 :: w2 :: rest => (w1 + w2) + hcost fuel ((w1 + w2) :: rest)
      | _ => 0

def hcostF (ws : List Nat) : Nat := hcost ws.length ws

theorem hcost_congr_perm :
    ∀ (fuel : Nat) (ws ws' : List Nat), ws.Perm ws' → hcost fuel ws = hcost fuel ws' := by
  intro fuel ws ws' h
  cases fuel with
  | zero => rfl
  | succ fuel =>
      have hsort : List.insertionSort (· ≤ ·) ws = List.insertionSort (· ≤ ·) ws' := by
        refine List.eq_of_perm_of_sorted ?_ (List.sorted_insertionSort _ ws)
          (List.sorted_insertionSort _ ws')
        exact (List.perm_insertionSort _ ws).trans
          (h.trans (List.perm_insertionSort _ ws').symm)
      simp only [hcost, hsort]

/-- Huffman optimality over merge trees: the greedy merge cost is a lower
bound on the cost of every full binary tree with the same weight
multiset.  Proof: swap the two lightest weights into a deepest cherry
(never increasing the cost), contract the cherry, and recurse. -/
theorem hcostF_le_mcost : ∀ (n : Nat) (M : MTree), (mweights M).length ≤ n →
    hcostF (mweights M) ≤ mcost M := by
  intro n
  induction n with
  | zero =>
      intro M hlen
      have h1 := List.length_pos.mpr (mweights_ne_nil M)
      omega
  | succ n ih =>
      intro M hlen
      cases M with
      | leaf w =>
          simp [hcostF, mweights, hcost, List.insertionSort, List.orderedInsert, mcost]
      | node l r =>
          have hlenl := List.length_pos.mpr (mweights_ne_nil l)
          have hlenr := List.length_pos.mpr (mweights_ne_nil r)
          have hlen2 : 2 ≤ (mweights (MTree.node l r)).length := by
            simp only [mweights, List.length_append]
            omega
          set ws := mweights (MTree.node l r) with hws
          set sortedW := List.insertionSort (· ≤ ·) ws with hsW
          have hsWperm : ws.Perm sortedW := (List.perm_insertionSort _ ws).symm
          have hsWsorted : sortedW.Sorted (· ≤ ·) := List.sorted_insertionSort _ ws
          have hsWlen : sortedW.length = ws.length := hsWperm.length_eq.symm
          obtain ⟨a, b, rest, habr⟩ : ∃ a b rest, sortedW = a :: b :: rest := by
            cases hkk : sortedW with
            | nil =>
                rw [hkk] at hsWlen
                simp at hsWlen
                omega
            | cons a t =>
                cases hkk2 : t with
                | nil =>
                    rw [hkk, hkk2] at hsWlen
                    simp at hsWlen
                    omega
                | cons b rest => exact ⟨a, b, rest, rfl⟩
          rw [habr] at hsWperm hsWsorted
          have hab : a ≤ b := (List.sorted_cons.mp hsWsorted).1 b (by simp)
          have hrest : ∀ z ∈ rest, b ≤ z :=
            (List.sorted_cons.mp (List.sorted_cons.mp hsWsorted).2).1
          have hmin : ∀ z ∈ ws, a ≤ z := by
            intro z hz
            have hz2 := hsWperm.mem_iff.mp hz
            rcases List.mem_cons.mp hz2 with h1 | h1
            · omega
            · rcases List.mem_cons.mp h1 with h2 | h2
              · omega
              · exact hab.trans (hrest z h2)
          have hh1 : 1 ≤ mheight (MTree.node l r) := by
            simp [mheight]
          obtain ⟨p, x, y, hx, hy, hplen⟩ := exists_cherry _ hh1
          have hpLpR : (p ++ [false]) ≠ (p ++ [true]) := by
            intro hc
            have := List.append_cancel_left hc
            simp at this
          obtain ⟨qa, hqa⟩ := exists_path_of_mem _ a (hsWperm.mem_iff.mpr (by simp))
          have hqalen : qa.length ≤ (p ++ [false]).length := by
            have h1 := getw_length_le _ qa a hqa
            simp only [List.length_append, List.length_cons, List.length_nil]
            omega
          obtain ⟨M₁, hperm₁, hc₁, hpl₁, hh₁, y₁, hy₁⟩ :
              ∃ M₁, (mweights M₁).Perm ws ∧ mcost M₁ ≤ mcost (MTree.node l r) ∧
                getw M₁ (p ++ [false]) = some a ∧
                mheight M₁ = mheight (MTree.node l r) ∧
                ∃ y₁, getw M₁ (p ++ [true]) = some y₁ := by
            by_cases hqa_pL : qa = p ++ [false]
            · refine ⟨MTree.node l r, by rw [← hws], Nat.le_refl _, ?_, rfl, y, hy⟩
              rw [← hqa_pL]
              exact hqa
            · obtain ⟨M₁, s1, s2, s3, s4, s5, s6⟩ := swap_step (MTree.node l r)
                (p ++ [false]) qa x a hx hqa (fun hc => hqa_pL hc.symm) hqalen
                (hmin x (getw_mem _ _ _ hx))
              refine ⟨M₁, by rw [← hws] at s1; exact s1, s2, s3, s6, ?_⟩
              by_cases hqa_pR : qa = p ++ [true]
              · exact ⟨x, by rw [← hqa_pR]; exact s4⟩
              · exact ⟨y, by rw [s5 (p ++ [true]) (fun hc => hpLpR hc.symm)
                  (fun hc => hqa_pR hc.symm)]; exact hy⟩
          obtain ⟨pre₁, post₁, f1, -, -, f4, f5⟩ := path_decomp M₁ (p ++ [false]) a hpl₁
          have hmidperm : (pre₁ ++ post₁).Perm (b :: rest) := by
            have h1 : (a :: (pre₁ ++ post₁)).Perm (a :: b :: rest) := by
              refine (List.perm_middle.symm.trans ?_)
              rw [← f1]
              exact hperm₁.trans hsWperm
            exact h1.cons_inv
          have hbmem : b ∈ pre₁ ++ post₁ := hmidperm.mem_iff.mpr (by simp)
          obtain ⟨qb, hqb_ne_pL, hqb⟩ := f5 b hbmem
          have hy₁mem : y₁ ∈ pre₁ ++ post₁ :=
            f4 (p ++ [true]) y₁ (fun hc => hpLpR hc.symm) hy₁
          have hby₁ : b ≤ y₁ := by
            have h1 := hmidperm.mem_iff.mp hy₁mem
            rcases List.mem_cons.mp h1 with h2 | h2
            · omega
            · exact hrest y₁ h2
          obtain ⟨M₂, hperm₂, hc₂, hpl₂, hpr₂⟩ :
              ∃ M₂, (mweights M₂).Perm ws ∧ mcost M₂ ≤ mcost (MTree.node l r) ∧
                getw M₂ (p ++ [false]) = some a ∧
                getw M₂ (p ++ [true]) = some b := by
            by_cases hqb_pR : qb = p ++ [true]
            · refine ⟨M₁, hperm₁, hc₁, hpl₁, ?_⟩
              rw [← hqb_pR]
              exact hqb
            · have hqblen : qb.length ≤ (p ++ [true]).length := by
                have h1 := getw_length_le _ qb b hqb
                rw [hh₁] at h1
                simp only [List.length_append, List.length_cons, List.length_nil]
                omega
              obtain ⟨M₂, s1, s2, s3, s4, s5, s6⟩ := swap_step M₁
                (p ++ [true]) qb y₁ b hy₁ hqb (fun hc => hqb_pR hc.symm) hqblen hby₁
              refine ⟨M₂, s1.trans hperm₁, s2.trans hc₁, ?_, s3⟩
              rw [s5 (p ++ [false]) hpLpR hqb_ne_pL.symm]
              exact hpl₁
          obtain ⟨pre, post, g1, g2, g3, g4⟩ := contract_spec p M₂ a b hpl₂ hpr₂
          have hperm₃ : (mweights (contract M₂ p)).Perm ((a + b) :: rest) := by
            have h1 : (mweights M₂).Perm (a :: b :: rest) := hperm₂.trans hsWperm
            rw [g1] at h1
            have h4 : (a :: b :: (pre ++ post)).Perm (a :: b :: rest) :=
              (((List.perm_middle.symm).cons a).trans List.perm_middle.symm).trans h1
            have h3 : (pre ++ post).Perm rest := (h4.cons_inv).cons_inv
            rw [g2]
            exact List.perm_middle.trans (h3.cons (a + b))
          have hlen₃ : (mweights (contract M₂ p)).length ≤ n := by
            have h1 := hperm₃.length_eq
            have h2 : ws.length = rest.length + 2 := by
              rw [hsWperm.length_eq]
              simp
            simp only [List.length_cons] at h1
            omega
          have hIH := ih (contract M₂ p) hlen₃
          have hsorteq : List.insertionSort (fun x y => x ≤ y) ws = a :: b :: rest := by
            rw [← hsW]
            exact habr
          have hunf : hcostF ws = (a + b) + hcost (rest.length + 1) ((a + b) :: rest) := by
            unfold hcostF
            rw [show ws.length = (rest.length + 1) + 1 from by
              rw [hsWperm.length_eq]; simp]
            simp only [hcost, hsorteq]
          have hstep : hcost (rest.length + 1) ((a + b) :: rest) =
              hcostF (mweights (contract M₂ p)) := by
            unfold hcostF
            rw [hperm₃.length_eq]
            simp only [List.length_cons]
            exact hcost_congr_perm _ _ _ hperm₃.symm
          rw [show hcostF (mweights (MTree.node l r)) = hcostF ws from rfl]
          rw [hunf, hstep]
          omega

theorem hcostF_perm {u v : List Nat} (h : u.Perm v) : hcostF u = hcostF v := by
  unfold hcostF
  rw [h.length_eq]
  exact hcost_congr_perm _ _ _ h

/-- Project a (well-formed) `HuffmanNode` tree onto a full binary weight
tree: unary nodes are contracted, leaves keep their dictionary weight. -/
def toM (freq : List (Nat × Nat)) : HTree → MTree
  | .null => .leaf 0
  | .mk s l r _ =>
      if l == .null && r == .null then .leaf (wOf freq s)
      else if l == .null then toM freq r
      else if r == .null then toM freq l
      else .node (toM freq l) (toM freq r)

theorem toM_total (freq : List (Nat × Nat)) :
    ∀ t : HTree, t ≠ .null → mtotal (toM freq t) = leafWeightSum freq t := by
  intro t
  induction t with
  | null => intro h; exact absurd rfl h
  | mk s l r num ihl ihr =>
      intro _
      by_cases hl : l = .null
      · by_cases hr : r = .null
        · subst hl; subst hr
          simp [toM, mtotal, leafWeightSum, HTree.is_leaf]
        · subst hl
          have hlf : (HTree.mk s HTree.null r num).is_leaf = false := by
            simp [HTree.is_leaf, hr]
          rw [show toM freq (HTree.mk s HTree.null r num) = toM freq r from by
            simp [toM, hr]]
          rw [ihr hr]
          simp [leafWeightSum, hlf]
      · by_cases hr : r = .null
        · subst hr
          have hlf : (HTree.mk s l HTree.null num).is_leaf = false := by
            simp [HTree.is_leaf, hl]
          rw [show toM freq (HTree.mk s l HTree.null num) = toM freq l from by
            simp [toM, hl]]
          rw [ihl hl]
          simp [leafWeightSum, hlf]
        · have hlf : (HTree.mk s l r num).is_leaf = false := by
            simp [HTree.is_leaf, hl]
          rw [show toM freq (HTree.mk s l r num) =
              MTree.node (toM freq l) (toM freq r) from by
            simp [toM, hl, hr]]
          simp only [mtotal, ihl hl, ihr hr]
          simp [leafWeightSum, hlf]

theorem toM_cost_le (freq : List (Nat × Nat)) :
    ∀ t : HTree, t ≠ .null → mcost (toM freq t) ≤ wds freq t := by
  intro t
  induction t with
  | null => intro h; exact absurd rfl h
  | mk s l r num ihl ihr =>
      intro _
      by_cases hl : l = .null
      · by_cases hr : r = .null
        · subst hl; subst hr
          simp [toM, mcost, wds, HTree.is_leaf]
        · subst hl
          have hlf : (HTree.mk s HTree.null r num).is_leaf = false := by
            simp [HTree.is_leaf, hr]
          rw [show toM freq (HTree.mk s HTree.null r num) = toM freq r from by
            simp [toM, hr]]
          have := ihr hr
          simp only [wds, hlf, Bool.false_eq_true, if_false]
          omega
      · by_cases hr : r = .null
        · subst hr
          have hlf : (HTree.mk s l HTree.null num).is_leaf = false := by
            simp [HTree.is_leaf, hl]
          rw [show toM freq (HTree.mk s l HTree.null num) = toM freq l from by
            simp [toM, hl]]
          have := ihl hl
          simp only [wds, hlf, Bool.false_eq_true, if_false]
          omega
        · have hlf : (HTree.mk s l r num).is_leaf = false := by
            simp [HTree.is_leaf, hl]
          rw [show toM freq (HTree.mk s l r num) =
              MTree.node (toM freq l) (toM freq r) from by
            simp [toM, hl, hr]]
          have h1 := ihl hl
          have h2 := ihr hr
          have h3 := toM_total freq l hl
          have h4 := toM_total freq r hr
          simp only [mcost, wds, hlf, Bool.false_eq_true, if_false]
          omega

theorem toM_weights (freq : List (Nat × Nat)) :
    ∀ t : HTree, t ≠ .null →
      (mweights (toM freq t)).Perm ((get_leaf t).map (wOf freq)) := by
  intro t
  induction t with
  | null => intro h; exact absurd rfl h
  | mk s l r num ihl ihr =>
      intro _
      by_cases hl : l = .null
      · by_cases hr : r = .null
        · subst hl; subst hr
          simp [toM, mweights, get_leaf, HTree.is_leaf]
        · subst hl
          have hlf : (HTree.mk s HTree.null r num).is_leaf = false := by
            simp [HTree.is_leaf, hr]
          rw [show toM freq (HTree.mk s HTree.null r num) = toM freq r from by
            simp [toM, hr]]
          rw [get_leaf_internal hlf]
          rw [show get_leaf HTree.null = ([] : List (Option Nat)) from rfl,
            List.append_nil]
          exact ihr hr
      · by_cases hr : r = .null
        · subst hr
          have hlf : (HTree.mk s l HTree.null num).is_leaf = false := by
            simp [HTree.is_leaf, hl]
          rw [show toM freq (HTree.mk s l HTree.null num) = toM freq l from by
            simp [toM, hl]]
          rw [get_leaf_internal hlf]
          rw [show get_leaf HTree.null = ([] : List (Option Nat)) from rfl, List.nil_append]
          exact ihl hl
        · have hlf : (HTree.mk s l r num).is_leaf = false := by
            simp [HTree.is_leaf, hl]
          rw [show toM freq (HTree.mk s l r num) =
              MTree.node (toM freq l) (toM freq r) from by
            simp [toM, hl, hr]]
          rw [get_leaf_internal hlf]
          rw [show mweights (MTree.node (toM freq l) (toM freq r)) =
              mweights (toM freq l) ++ mweights (toM freq r) from rfl]
          rw [List.map_append]
          exact ((ihl hl).append (ihr hr)).trans List.perm_append_comm

instance : IsTotal (Nat × HTree) wtLe := ⟨fun a b => by unfold wtLe; omega⟩

instance : IsTrans (Nat × HTree) wtLe := ⟨fun a b c => by unfold wtLe; omega⟩

theorem hcostF_singleton (w : Nat) : hcostF [w] = 0 := by
  simp [hcostF, hcost, List.insertionSort, List.orderedInsert]

theorem lws_merge_node (freq : List (Nat × Nat)) {l r : HTree} (hl : l ≠ .null) :
    leafWeightSum freq (HTree.mk none l r none) =
      leafWeightSum freq l + leafWeightSum freq r := by
  simp [leafWeightSum, HTree.is_leaf, hl]

theorem wds_merge_node (freq : List (Nat × Nat)) {l r : HTree} (hl : l ≠ .null) :
    wds freq (HTree.mk none l r none) =
      wds freq l + wds freq r + leafWeightSum freq l + leafWeightSum freq r := by
  simp [wds, HTree.is_leaf, hl]

/-- The merge loop realizes the greedy merge cost: starting from a sorted
list of weighted trees, the final tree's weighted depth sum is the sum of
the members' plus the greedy cost of the weight list. -/
theorem hmerge_wds (freq : List (Nat × Nat)) :
    ∀ (fuel : Nat) (L : List (Nat × HTree)), 1 ≤ L.length → L.length ≤ fuel + 1 →
      L.Sorted wtLe →
      (∀ q ∈ L, leafWeightSum freq q.2 = q.1 ∧ q.2 ≠ .null) →
      ∃ T, hmerge fuel L = some T ∧ T ≠ .null ∧
        leafWeightSum freq T = (L.map Prod.fst).sum ∧
        wds freq T = (L.map (fun q => wds freq q.2)).sum + hcostF (L.map Prod.fst) := by
  intro fuel
  induction fuel with
  | zero =>
      intro L h1 h2 _ hinv
      match L, h1, h2 with
      | [x], _, _ =>
          obtain ⟨hx1, hx2⟩ := hinv x (by simp)
          refine ⟨x.2, rfl, hx2, by simp [hx1], ?_⟩
          simp [hcostF_singleton]
  | succ fuel ih =>
      intro L h1 h2 hs hinv
      match L, h1, h2 with
      | [x], _, _ =>
          obtain ⟨hx1, hx2⟩ := hinv x (by simp)
          refine ⟨x.2, rfl, hx2, by simp [hx1], ?_⟩
          simp [hcostF_singleton]
      | m1 :: m2 :: rest, _, h2 =>
          obtain ⟨hm1w, hm1nn⟩ := hinv m1 (by simp)
          obtain ⟨hm2w, hm2nn⟩ := hinv m2 (by simp)
          set nn := HTree.mk none m1.2 m2.2 none with hnn
          set L' := List.insertionSort wtLe (rest ++ [(m1.1 + m2.1, nn)]) with hL'
          have hL'perm : L'.Perm (rest ++ [(m1.1 + m2.1, nn)]) :=
            List.perm_insertionSort _ _
          have hlen' : L'.length = rest.length + 1 := by
            rw [hL'perm.length_eq]
            simp
          have hsorted' : L'.Sorted wtLe := List.sorted_insertionSort _ _
          have hnnlws : leafWeightSum freq nn = m1.1 + m2.1 := by
            rw [hnn, lws_merge_node freq hm1nn, hm1w, hm2w]
          have hinv' : ∀ q ∈ L', leafWeightSum freq q.2 = q.1 ∧ q.2 ≠ .null := by
            intro q hq
            have hq2 := hL'perm.mem_iff.mp hq
            rcases List.mem_append.mp hq2 with hm | hm
            · exact hinv q (by simp [hm])
            · simp only [List.mem_singleton] at hm
              subst hm
              exact ⟨hnnlws, by rw [hnn]; intro hc; cases hc⟩
          obtain ⟨T, hT, hTnn, hlwsT, hwdsT⟩ := ih L' (by omega) (by
            simp only [List.length_cons] at h2
            omega) hsorted' hinv'
          have hstep : hmerge (fuel + 1) (m1 :: m2 :: rest) = hmerge fuel L' := rfl
          have hfstperm : (L'.map Prod.fst).Perm ((m1.1 + m2.1) :: rest.map Prod.fst) := by
            refine (hL'perm.map Prod.fst).trans ?_
            rw [List.map_append]
            simpa using List.perm_middle
          have hfst : ((m1 :: m2 :: rest).map Prod.fst).Sorted (· ≤ ·) :=
            List.Pairwise.map Prod.fst (fun a b hab => hab) hs
          have hsid : List.insertionSort (· ≤ ·) ((m1 :: m2 :: rest).map Prod.fst) =
              (m1 :: m2 :: rest).map Prod.fst := by
            refine List.eq_of_perm_of_sorted (List.perm_insertionSort _ _)
              (List.sorted_insertionSort _ _) hfst
          have hunf : hcostF ((m1 :: m2 :: rest).map Prod.fst) =
              (m1.1 + m2.1) + hcostF ((m1.1 + m2.1) :: rest.map Prod.fst) := by
            simp only [hcostF, List.map_cons, List.length_cons]
            rw [show hcost (rest.map Prod.fst).length.succ.succ
                (m1.1 :: m2.1 :: rest.map Prod.fst) =
              (m1.1 + m2.1) + hcost (rest.map Prod.fst).length.succ
                ((m1.1 + m2.1) :: rest.map Prod.fst) from by
              simp only [hcost]
              rw [show List.insertionSort (fun x1 x2 => x1 ≤ x2)
                  (m1.1 :: m2.1 :: List.map Prod.fst rest) =
                  m1.1 :: m2.1 :: List.map Prod.fst rest from by
                simpa using hsid]]
          refine ⟨T, by rw [hstep]; exact hT, hTnn, ?_, ?_⟩
          · rw [hlwsT, hfstperm.sum_eq]
            simp
            omega
          · rw [hwdsT]
            have hA : ((L'.map (fun q => wds freq q.2)).sum : Nat) =
                (rest.map (fun q => wds freq q.2)).sum + wds freq nn := by
              rw [(hL'perm.map (fun q => wds freq q.2)).sum_eq]
              simp
            have hB : wds freq nn =
                wds freq m1.2 + wds freq m2.2 + m1.1 + m2.1 := by
              rw [hnn, wds_merge_node freq hm1nn, hm1w, hm2w]
            have hC : hcostF (L'.map Prod.fst) =
                hcostF ((m1.1 + m2.1) :: rest.map Prod.fst) := hcostF_perm hfstperm
            rw [hA, hB, hC, hunf]
            simp only [List.map_cons, List.sum_cons]
            omega

/-- For at least two symbols the merge loop runs and the built tree's
weighted depth sum is exactly the greedy merge cost of the frequency
values (and its total weight is their sum). -/
theorem huffman_tree_wds (freq : List (Nat × Nat))
    (hkeys : (freq.map Prod.fst).Nodup) (h2 : 2 ≤ freq.length) :
    ∃ t, huffman_tree freq = some t ∧
      leafWeightSum freq t = (freq.map Prod.snd).sum ∧
      wds freq t = hcostF (freq.map Prod.snd) := by
  unfold huffman_tree
  dsimp only
  set sort_lst := List.insertionSort tupLe (freq.map (fun i => (i.2, i.1))) with hsl
  set node_list := sort_lst.map (fun i => (i.1, HTree.leaf i.2)) with hnl
  have hslperm : sort_lst.Perm (freq.map (fun i => (i.2, i.1))) :=
    List.perm_insertionSort _ _
  have hsllen : sort_lst.length = freq.length := by simpa using hslperm.length_eq
  have hnllen : node_list.length = freq.length := by simp [hnl, hsllen]
  have hinv : ∀ q ∈ node_list, leafWeightSum freq q.2 = q.1 ∧ q.2 ≠ .null := by
    intro q hq
    rw [hnl] at hq
    obtain ⟨i, hi, hqe⟩ := List.mem_map.mp hq
    have hifreq : (i.2, i.1) ∈ freq := by
      have hm := hslperm.mem_iff.mp hi
      obtain ⟨p, hp, hpe⟩ := List.mem_map.mp hm
      rw [← hpe]
      simpa using hp
    constructor
    · rw [← hqe]
      show leafWeightSum freq (HTree.leaf i.2) = i.1
      rw [show leafWeightSum freq (HTree.leaf i.2) = wOf freq (some i.2) from by
        simp [leafWeightSum, HTree.leaf, HTree.is_leaf]]
      rw [show wOf freq (some i.2) = (dictGet freq i.2).getD 0 from rfl]
      rw [dictGet_of_mem freq i.2 i.1 hkeys hifreq]
      rfl
    · rw [← hqe]
      simp [HTree.leaf]
  have hslsorted : sort_lst.Sorted tupLe := List.sorted_insertionSort _ _
  have hnlsorted : node_list.Sorted wtLe := by
    rw [hnl]
    exact List.Pairwise.map _
      (fun a b hab => by unfold tupLe at hab; unfold wtLe; omega) hslsorted
  have hweights : (node_list.map Prod.fst).Perm (freq.map Prod.snd) := by
    rw [hnl, List.map_map]
    rw [show (Prod.fst ∘ fun i : Nat × Nat => (i.1, HTree.leaf i.2)) = Prod.fst from rfl]
    have h := hslperm.map Prod.fst
    refine h.trans ?_
    rw [List.map_map]
    exact List.Perm.refl _
  obtain ⟨m1, m2, rest2, hshape⟩ : ∃ m1 m2 rest2, node_list = m1 :: m2 :: rest2 := by
    cases hc : node_list with
    | nil =>
        rw [hc] at hnllen
        simp at hnllen
        omega
    | cons a t =>
        cases hc2 : t with
        | nil =>
            rw [hc, hc2] at hnllen
            simp at hnllen
            omega
        | cons b u => exact ⟨a, b, u, rfl⟩
  obtain ⟨T, hT, hTnn, hlws, hwds⟩ := hmerge_wds freq node_list.length node_list
    (by omega) (by omega) hnlsorted hinv
  rw [hshape] at hT
  refine ⟨T, ?_, ?_, ?_⟩
  · rw [hshape]
    exact hT
  · rw [hlws, hweights.sum_eq]
  · rw [hwds]
    have hz : (node_list.map (fun q => wds freq q.2)).sum = 0 := by
      apply List.sum_eq_zero
      intro x hx
      obtain ⟨q, hq, hqe⟩ := List.mem_map.mp hx
      rw [hnl] at hq
      obtain ⟨i, -, hie⟩ := List.mem_map.mp hq
      rw [← hqe, ← hie]
      simp [HTree.leaf, wds, HTree.is_leaf]
    rw [hz, hcostF_perm hweights]
    omega

theorem lws_of_leaf_perm (freq : List (Nat × Nat)) (t : HTree)
    (hkeys : (freq.map Prod.fst).Nodup)
    (hperm : (get_leaf t).Perm (freq.map (fun p => some p.1))) :
    leafWeightSum freq t = (freq.map Prod.snd).sum := by
  rw [← sum_wOf_get_leaf freq t]
  have h := (hperm.map (wOf freq)).sum_eq
  rw [List.map_map] at h
  rw [h]
  rw [show freq.map (wOf freq ∘ fun p : Nat × Nat => some p.1) = freq.map Prod.snd from
    List.map_congr_left (by
      intro p hp
      simp only [Function.comp]
      rw [show wOf freq (some p.1) = (dictGet freq p.1).getD 0 from rfl]
      rw [dictGet_of_mem freq p.1 p.2 hkeys (by simpa using hp)]
      rfl)]

/-- C8 counterexample: for the single-symbol alphabet `{42: 100}` the
bare leaf is a valid prefix tree over the same alphabet whose average
code length (0) beats the built tree's (1): the code-table code for the
root symbol is the empty string.  So the built tree is not optimal
against every valid tree over the alphabet. -/
theorem claim_C8_counterexample :
    huffman_tree [(42, 100)] =
      some (HTree.mk none (HTree.mk (some 42) .null .null none) .null none) ∧
    wf (HTree.mk (some 42) .null .null none) = true ∧
    (get_leaf (HTree.mk (some 42) .null .null none)).Perm
      ([(42, 100)].map (fun p => some p.1)) ∧
    avg_length (HTree.mk none (HTree.mk (some 42) .null .null none) .null none)
      [(42, 100)] = some (((100 : Nat) : Rat) / ((100 : Nat) : Rat)) ∧
    avg_length (HTree.mk (some 42) .null .null none) [(42, 100)] =
      some (((0 : Nat) : Rat) / ((100 : Nat) : Rat)) ∧
    ((0 : Nat) : Rat) / ((100 : Nat) : Rat) <
      ((100 : Nat) : Rat) / ((100 : Nat) : Rat) :=
  ⟨by decide, by decide, by decide, rfl, rfl, by norm_num⟩

/-- C8 amended: for every frequency dictionary with at least two distinct
symbols and nonzero total weight, the tree built by `huffman_tree` has
minimal `avg_length` among all well-formed trees with distinct leaf
symbols over the same alphabet (for a single symbol the claim fails, see
the counterexample: the bare leaf gets a zero-length code); and on the
doctest frequencies `{3: 2, 2: 7, 9: 1}` the tree `((3, 2), 9)` has
average length exactly 1.9 bits per symbol. -/
theorem claim_C8 :
    (∀ (freq : List (Nat × Nat)) (T : HTree),
      (freq.map Prod.fst).Nodup → 2 ≤ freq.length → (freq.map Prod.snd).sum ≠ 0 →
      wf T = true → (get_leaf T).Nodup →
      (get_leaf T).Perm (freq.map (fun p => some p.1)) →
      ∃ t a b, huffman_tree freq = some t ∧ avg_length t freq = some a ∧
        avg_length T freq = some b ∧ a ≤ b) ∧
    avg_length (HTree.mk none
        (HTree.mk none (HTree.mk (some 3) .null .null none)
          (HTree.mk (some 2) .null .null none) none)
        (HTree.mk (some 9) .null .null none) none)
      [(3, 2), (2, 7), (9, 1)] = some (1.9 : Rat) := by
  constructor
  · intro freq T hkeys h2 hsum hwfT hndT hpermT
    obtain ⟨t, hht, hlws_t, hwds_t⟩ := huffman_tree_wds freq hkeys h2
    obtain ⟨htnn, hwft, hndt, hpermt⟩ := huffman_tree_spec freq t hkeys hht
    have hTnn : T ≠ .null := by
      intro hc
      rw [hc] at hpermT
      have := hpermT.length_eq
      simp [get_leaf] at this
      omega
    have hkt : ∀ s ∈ get_leaf t, ∃ v fv, s = some v ∧ dictGet freq v = some fv := by
      intro s hs
      have hs2 := hpermt.mem_iff.mp hs
      obtain ⟨p, hp, hpe⟩ := List.mem_map.mp hs2
      exact ⟨p.1, p.2, hpe.symm, dictGet_of_mem freq p.1 p.2 hkeys (by simpa using hp)⟩
    have hkT : ∀ s ∈ get_leaf T, ∃ v fv, s = some v ∧ dictGet freq v = some fv := by
      intro s hs
      have hs2 := hpermT.mem_iff.mp hs
      obtain ⟨p, hp, hpe⟩ := List.mem_map.mp hs2
      exact ⟨p.1, p.2, hpe.symm, dictGet_of_mem freq p.1 p.2 hkeys (by simpa using hp)⟩
    have hlwsT : leafWeightSum freq T = (freq.map Prod.snd).sum :=
      lws_of_leaf_perm freq T hkeys hpermT
    have h0t : leafWeightSum freq t ≠ 0 := by
      rw [hlws_t]
      exact hsum
    have h0T : leafWeightSum freq T ≠ 0 := by
      rw [hlwsT]
      exact hsum
    have havg_t := avg_length_eq t freq hwft hndt hkt
    have havg_T := avg_length_eq T freq hwfT hndT hkT
    rw [if_neg h0t] at havg_t
    rw [if_neg h0T] at havg_T
    -- the optimality core: wds t ≤ wds T
    have hwle : wds freq t ≤ wds freq T := by
      rw [hwds_t]
      have hb1 : mcost (toM freq T) ≤ wds freq T := toM_cost_le freq T hTnn
      have hb2 : hcostF (mweights (toM freq T)) ≤ mcost (toM freq T) :=
        hcostF_le_mcost (mweights (toM freq T)).length (toM freq T) (Nat.le_refl _)
      have hb3 : hcostF (mweights (toM freq T)) = hcostF (freq.map Prod.snd) := by
        apply hcostF_perm
        refine (toM_weights freq T hTnn).trans ?_
        have h := hpermT.map (wOf freq)
        rw [List.map_map] at h
        refine h.trans ?_
        rw [show freq.map (wOf freq ∘ fun p : Nat × Nat => some p.1) =
            freq.map Prod.snd from List.map_congr_left (by
          intro p hp
          simp only [Function.comp]
          rw [show wOf freq (some p.1) = (dictGet freq p.1).getD 0 from rfl]
          rw [dictGet_of_mem freq p.1 p.2 hkeys (by simpa using hp)]
          rfl)]
      omega
    refine ⟨t, (wds freq t : Rat) / (leafWeightSum freq t : Rat),
      (wds freq T : Rat) / (leafWeightSum freq T : Rat), hht, havg_t, havg_T, ?_⟩
    rw [hlws_t, hlwsT]
    have hc : (0 : Rat) < ((freq.map Prod.snd).sum : Rat) := by
      exact_mod_cast Nat.pos_of_ne_zero hsum
    apply (div_le_div_right hc).mpr
    exact_mod_cast hwle
  · rw [show avg_length (HTree.mk none
        (HTree.mk none (HTree.mk (some 3) .null .null none)
          (HTree.mk (some 2) .null .null none) none)
        (HTree.mk (some 9) .null .null none) none)
      [(3, 2), (2, 7), (9, 1)] =
        some (((19 : Nat) : Rat) / ((10 : Nat) : Rat)) from rfl]
    norm_num

/-- Witness for the C8 optimality statement on `{1: 3, 2: 5}` against the
straight two-leaf competitor. -/
theorem claim_C8_witness :
    ∃ t a b, huffman_tree [(1, 3), (2, 5)] = some t ∧
      avg_length t [(1, 3), (2, 5)] = some a ∧
      avg_length (HTree.mk none (HTree.mk (some 2) .null .null none)
        (HTree.mk (some 1) .null .null none) none) [(1, 3), (2, 5)] = some b ∧
      a ≤ b :=
  claim_C8.1 [(1, 3), (2, 5)]
    (HTree.mk none (HTree.mk (some 2) .null .null none)
      (HTree.mk (some 1) .null .null none) none)
    (by decide) (by decide) (by decide) (by decide) (by decide) (by decide)
